import Mathlib

/-!
Verification development for the container-yard planning engine
(source file `yardplannerV2E6.py`).

The Python engine is shallowly embedded below:

* `Container`, `YardPosition`, `YardArea` mirror the Python classes;
  the constructor-time computations (`_determine_size`,
  `_determine_weight_class`, `_get_container_length`,
  `_check_reefer_position`) become explicit functions.
* Python floats (gross weights, the `0.8` grouping threshold) are
  modelled as exact rationals `ℚ`.
* The two calls to the global random generator (`random.choice` for an
  undetermined ISO size and `random.randint(1, 8)` for a missing
  weight) are modelled by threading an explicit oracle stream
  `List Nat` through the computation.
* Python dicts (`placement_map`, `area_usage`, the zone table and the
  grouping dicts) are modelled as insertion-ordered association lists
  with dict update semantics.
* The one fault the engine can raise (`ZeroDivisionError` in
  `_compile_result` when the container list is empty) is modelled by
  `_compile_result` returning `Option Result`, `none` being the fault.
* The wall-clock `timestamp` string and the per-zone `area_details`
  report (which no claim inspects) are not modelled.
-/

set_option maxHeartbeats 1000000

attribute [local semireducible] Rat.ofScientific Rat.mul Rat.add Rat.sub Rat.inv

namespace YardPlanner

/-! ## Containers and weight classification -/

structure Container where
  unit_number : String
  iso_type : String
  transporter : Option String
  weight : Option ℚ
  port : Option String
  category : String
  size : Nat
  weight_class : Nat
  priority : Nat
  deriving DecidableEq

/-- The oracle for `random.*` calls: the head of the stream. -/
def rngHead (rng : List Nat) : Nat :=
  rng.headD 0

/-- Python's `weight_classes` dict from `_determine_weight_class` /
`assign_weight_classes`: band id, closed lower bound, closed upper bound. -/
def weight_classes : List (Nat × ℚ × ℚ) :=
  [(1, 0, 18.9), (2, 19, 23.4), (3, 23.5, 25.4), (4, 25.5, 26.6),
   (5, 26.7, 28.4), (6, 28.5, 30), (7, 30.1, 31), (8, 31.1, 50)]

/-- The loop of `_determine_weight_class`: first band whose closed
interval contains the weight, else the fall-through value 8. -/
def findBandAux : List (Nat × ℚ × ℚ) → ℚ → Nat
  | [], _ => 8
  | (k, lo, hi) :: rest, w => if lo ≤ w ∧ w ≤ hi then k else findBandAux rest w

def findBand (w : ℚ) : Nat :=
  findBandAux weight_classes w

/-- `Container._determine_weight_class`: present weight is classified by
`findBand`; a missing weight draws `random.randint(1, 8)`. -/
def determine_weight_class (weight : Option ℚ) (rng : List Nat) : Nat × List Nat :=
  match weight with
  | some w => (findBand w, rng)
  | none => (rngHead rng % 8 + 1, rng.tail)

/-- Substring test on char lists: does the second list occur at the start. -/
def startsWithL : List Char → List Char → Bool
  | _, [] => true
  | [], _ :: _ => false
  | a :: as, b :: bs => a == b && startsWithL as bs

/-- Substring test on char lists, anywhere (Python's `in` on strings). -/
def containsL : List Char → List Char → Bool
  | [], pat => pat.isEmpty
  | a :: as, pat => startsWithL (a :: as) pat || containsL as pat

def strContains (s pat : String) : Bool :=
  containsL s.toList pat.toList

/-- `Container._determine_size`: ISO codes containing "45" are long
(12 m), codes containing "22" or "20" are short (6 m), anything else
draws `random.choice([6, 12])`. -/
def determine_size (iso : String) (rng : List Nat) : Nat × List Nat :=
  if strContains iso ("45") then (12, rng)
  else if strContains iso ("22") || strContains iso ("20") then (6, rng)
  else (if rngHead rng % 2 == 0 then 6 else 12, rng.tail)

/-- `Container._determine_priority`. -/
def determine_priority (category : String) : Nat :=
  if category == ("Dangerous") then 1
  else if category == ("Reefer") then 2
  else if category == ("Out-of-Gauge") then 1
  else 3

/-- One raw input record as handed to `Container.__init__`. -/
structure RawRecord where
  unit_number : String
  iso_type : String
  transporter : Option String
  weight : Option ℚ
  port : Option String
  category : String
  deriving DecidableEq

/-- `Container.__init__`: computes size, weight class and priority in
that order, threading the random oracle. -/
def mkContainer (rng : List Nat) (r : RawRecord) : Container × List Nat :=
  let s := determine_size r.iso_type rng
  let w := determine_weight_class r.weight s.2
  ({ unit_number := r.unit_number
     iso_type := r.iso_type
     transporter := r.transporter
     weight := r.weight
     port := r.port
     category := r.category
     size := s.1
     weight_class := w.1
     priority := determine_priority r.category }, w.2)

def mkContainers : List Nat → List RawRecord → List Container × List Nat
  | rng, [] => ([], rng)
  | rng, r :: rest =>
    let c := mkContainer rng r
    let cs := mkContainers c.2 rest
    (c.1 :: cs.1, cs.2)

/-! ## Yard positions (slots) -/

structure YardPosition where
  area : String
  row : Nat
  column : Char
  max_tiers : Int
  containers : List Container
  available_tiers : Int
  container_length : Option Nat
  is_reefer_position : Bool
  deriving DecidableEq

/-- `YardPosition._get_container_length`: rows that are multiples of 4
are walkways (no length), even rows take 12 m, odd rows take 6 m. -/
def get_container_length (row : Nat) : Option Nat :=
  if row % 4 == 0 then none
  else if row % 2 == 0 then some 12
  else some 6

/-- `YardPosition._check_reefer_position`: the static reefer table. -/
def check_reefer_position (area : String) (row : Nat) : Bool :=
  if area == ("M2") then true
  else if area == ("Q1") && (row == 2 || row == 6 || row == 10) then true
  else if area == ("Q2") && (row == 2 || row == 6 || row == 10 || row == 12) then true
  else false

/-- `YardPosition.__init__`. -/
def mkYardPosition (area : String) (row : Nat) (column : Char) (max_tiers : Int) :
    YardPosition :=
  { area := area
    row := row
    column := column
    max_tiers := max_tiers
    containers := []
    available_tiers := max_tiers
    container_length := get_container_length row
    is_reefer_position := check_reefer_position area row }

namespace YardPosition

/-- `YardPosition.can_place_container`. -/
def can_place_container (p : YardPosition) (c : Container)
    (area_weight_classes : List Nat) : Bool :=
  if p.container_length != some c.size then false
  else if p.available_tiers ≤ 0 then false
  else if !(area_weight_classes.contains c.weight_class) then false
  else if c.category == ("Reefer") && !p.is_reefer_position then false
  else true

/-- `YardPosition.place_container`: guarded decrement of the
remaining-tier counter plus append to the stack. -/
def place_container (p : YardPosition) (c : Container) : Bool × YardPosition :=
  if p.available_tiers ≤ 0 then (false, p)
  else (true, { p with
                containers := p.containers ++ [c]
                available_tiers := p.available_tiers - 1 })

/-- The tier component of `YardPosition.get_position_code`. -/
def get_position_tier (p : YardPosition) : Nat :=
  if p.containers.isEmpty then 1 else p.containers.length

/-- `YardPosition.get_position_code`. -/
def get_position_code (p : YardPosition) : String :=
  p.area ++ toString p.row ++ toString p.column ++ toString p.get_position_tier

end YardPosition

/-! ## Yard areas (zones) -/

structure YardArea where
  name : String
  allowed_weight_classes : List Nat
  max_stack_height : Int
  positions : List YardPosition
  deriving DecidableEq

/-- `YardArea._initialize_positions`: rows 1..31, columns A..U, the
`continue` on rows that are multiples of 4. -/
def init_positions (name : String) (max_stack_height : Int) : List YardPosition :=
  (List.range' 1 31).flatMap (fun row =>
    (List.range' 65 21).flatMap (fun i =>
      if row % 4 == 0 then []
      else [mkYardPosition name row (Char.ofNat i) max_stack_height]))

/-- `YardArea.__init__` (with an explicit weight-class list). -/
def mkYardArea (name : String) (allowed : List Nat) (max_stack_height : Int) :
    YardArea :=
  { name := name
    allowed_weight_classes := allowed
    max_stack_height := max_stack_height
    positions := init_positions name max_stack_height }

namespace YardArea

/-- `YardArea.get_available_positions`. -/
def get_available_positions (a : YardArea) (c : Container) : List YardPosition :=
  a.positions.filter (fun p => p.can_place_container c a.allowed_weight_classes)

/-- `YardArea.place_container`: the first available position is the
object mutated in place, i.e. the least index whose slot passes
`can_place_container`. -/
def place_container (a : YardArea) (c : Container) : Option String × YardArea :=
  match a.positions.findIdx?
      (fun p => p.can_place_container c a.allowed_weight_classes) with
  | none => (none, a)
  | some i =>
    match a.positions[i]? with
    | none => (none, a)
    | some p =>
      let pr := p.place_container c
      if pr.1 then
        (some pr.2.get_position_code, { a with positions := a.positions.set i pr.2 })
      else (none, a)

end YardArea

/-! ## The optimizer's zone table and configuration -/

abbrev Areas := List (String × YardArea)

/-- `AdvancedYardLayoutOptimizer._initialize_areas`. -/
def init_areas : Areas :=
  [(("M1"), mkYardArea ("M1") [1, 2, 3, 4, 5, 6, 7, 8] 5),
   (("M2"), mkYardArea ("M2") [1, 2, 3, 4, 5, 6, 7, 8] 5),
   (("W1"), mkYardArea ("W1") [3, 4, 5, 6, 7, 8] 4),
   (("W2"), mkYardArea ("W2") [3, 4, 5, 6, 7, 8] 4),
   (("Q1"), mkYardArea ("Q1") [1, 2, 3, 4, 5, 6, 7, 8] 4),
   (("Q2"), mkYardArea ("Q2") [1, 2, 3, 4, 5, 6, 7, 8] 4)]

def areasGet (areas : Areas) (name : String) : Option YardArea :=
  (areas.find? (fun kv => kv.1 == name)).map (fun kv => kv.2)

/-- Replace the (unique) entry of a zone name; Python dict assignment. -/
def areasSet : Areas → String → YardArea → Areas
  | [], _, _ => []
  | kv :: rest, name, a =>
    if kv.1 == name then (name, a) :: rest else kv :: areasSet rest name a

/-- Place a container into the named zone of the table, mutating it in
place on success (`self.areas[area_name].place_container(container)`). -/
def areasPlace (areas : Areas) (name : String) (c : Container) :
    Option String × Areas :=
  match areasGet areas name with
  | none => (none, areas)
  | some a =>
    match a.place_container c with
    | (none, _) => (none, areas)
    | (some code, a2) => (some code, areasSet areas name a2)

/-- `AdvancedYardLayoutOptimizer.set_area_weight_classes`: unknown zone
names are ignored. -/
def set_area_weight_classes (areas : Areas) (cfg : List (String × List Nat)) : Areas :=
  cfg.foldl (fun as entry =>
    match areasGet as entry.1 with
    | none => as
    | some a => areasSet as entry.1 { a with allowed_weight_classes := entry.2 }) areas

/-- `AdvancedYardLayoutOptimizer.assign_weight_classes` (the for-else
loop re-derives exactly `findBand`). -/
def assign_weight_classes : List Nat → List Container → List Container × List Nat
  | rng, [] => ([], rng)
  | rng, c :: rest =>
    match c.weight with
    | some w =>
      let pr := assign_weight_classes rng rest
      ({ c with weight_class := findBand w } :: pr.1, pr.2)
    | none =>
      let pr := assign_weight_classes rng.tail rest
      ({ c with weight_class := rngHead rng % 8 + 1 } :: pr.1, pr.2)

/-! ## Placement records, maps and run state -/

structure PlacementRecord where
  position : String
  area : String
  transporter : Option String
  port : Option String
  weight_class : Nat
  size : Nat
  category : String
  iso_type : String
  deriving DecidableEq

abbrev PlacementMap := List (String × PlacementRecord)

def mapContains (m : PlacementMap) (k : String) : Bool :=
  m.any (fun kv => kv.1 == k)

/-- Ordered-dict insertion: overwrite in place if present, else append. -/
def mapInsert (m : PlacementMap) (k : String) (v : PlacementRecord) : PlacementMap :=
  if mapContains m k then
    m.map (fun kv => if kv.1 == k then (k, v) else kv)
  else m ++ [(k, v)]

abbrev AreaUsage := List (String × Nat)

/-- `area_usage[name] += n` (the key always exists in engine runs). -/
def usageBump (u : AreaUsage) (name : String) (n : Nat) : AreaUsage :=
  u.map (fun kv => if kv.1 == name then (kv.1, kv.2 + n) else kv)

/-- The mutable state of one planning run. -/
structure PlanState where
  areas : Areas
  placement_map : PlacementMap
  area_usage : AreaUsage
  placed_count : Nat
  deriving DecidableEq

/-! ## Grouping (Python dicts keyed by carrier / port / weight class) -/

def addToGroup {K : Type} [BEq K] (acc : List (K × List Container)) (k : K)
    (c : Container) : List (K × List Container) :=
  if acc.any (fun kv => kv.1 == k) then
    acc.map (fun kv => if kv.1 == k then (kv.1, kv.2 ++ [c]) else kv)
  else acc ++ [(k, [c])]

/-- Partition preserving first-seen key order and in-group order. -/
def groupByKey {K : Type} [BEq K] (f : Container → K) (cs : List Container) :
    List (K × List Container) :=
  cs.foldl (fun acc c => addToGroup acc (f c) c) []

/-! ## Metrics compilation -/

structure Result where
  placement_map : PlacementMap
  efficiency : ℚ
  space_utilization : ℚ
  grouping_efficiency : ℚ
  total_placed : Nat
  total_containers : Nat
  details : String
  deriving DecidableEq

/-- Adjacent-pair predicate of `_calculate_grouping_efficiency`. -/
def pairMatch (op : String) (a b : PlacementRecord) : Bool :=
  if op == ("IMPORT") then a.transporter == b.transporter && a.area == b.area
  else a.port == b.port && a.area == b.area &&
    ((a.weight_class : Int) - (b.weight_class : Int)).natAbs ≤ 1

def countPairs (l : List PlacementRecord) (op : String) : Nat :=
  ((l.zip l.tail).filter (fun ab => pairMatch op ab.1 ab.2)).length

/-- `AdvancedYardLayoutOptimizer._calculate_grouping_efficiency`: both
divisions here are guarded. -/
def calculate_grouping_efficiency (m : PlacementMap) (op : String) : ℚ :=
  if m.isEmpty then 0
  else
    let placements := m.map (fun kv => kv.2)
    let total_pairs := placements.length - 1
    let grouped_pairs := countPairs placements op
    if 0 < total_pairs then ((grouped_pairs : ℚ) / (total_pairs : ℚ)) * 100 else 0

def total_positions_of (areas : Areas) : Nat :=
  areas.foldl (fun s kv => s + kv.2.positions.length) 0

def total_usage_of (u : AreaUsage) : Nat :=
  u.foldl (fun s kv => s + kv.2) 0

/-- `AdvancedYardLayoutOptimizer._compile_result`. The efficiency
division has no zero guard, so an empty container list faults
(`ZeroDivisionError`), modelled as `none`; the space-utilization
division is guarded. -/
def compile_result (areas : Areas) (containers : List Container)
    (m : PlacementMap) (u : AreaUsage) (op : String) : Option Result :=
  let total_containers := containers.length
  let placed_count := m.length
  let total_positions := total_positions_of areas
  let used_positions := total_usage_of u
  let space_utilization : ℚ :=
    if 0 < total_positions then
      ((used_positions : ℚ) / (total_positions : ℚ)) * 100
    else 0
  let grouping_efficiency := calculate_grouping_efficiency m op
  if total_containers = 0 then none
  else some
    { placement_map := m
      efficiency := ((placed_count : ℚ) / (total_containers : ℚ)) * 100
      space_utilization := space_utilization
      grouping_efficiency := grouping_efficiency
      total_placed := placed_count
      total_containers := total_containers
      details := op ++ (" optimization completed") }

/-! ## The best-effort fallback -/

def mkAnyRecord (c : Container) (code : String) (name : String) : PlacementRecord :=
  { position := code
    area := name
    transporter := c.transporter
    port := c.port
    weight_class := c.weight_class
    size := c.size
    category := c.category
    iso_type := c.iso_type }

/-- Loop body of `_place_container_anywhere` over the zone names. -/
def place_anywhere_go (c : Container) : List String → PlanState → Bool × PlanState
  | [], st => (false, st)
  | name :: rest, st =>
    match areasGet st.areas name with
    | none => place_anywhere_go c rest st
    | some a =>
      if a.allowed_weight_classes.contains c.weight_class then
        match areasPlace st.areas name c with
        | (some code, areas2) =>
          (true, { st with
                   areas := areas2
                   placement_map := mapInsert st.placement_map c.unit_number
                     (mkAnyRecord c code name)
                   area_usage := usageBump st.area_usage name 1 })
        | (none, _) => place_anywhere_go c rest st
      else place_anywhere_go c rest st

/-- `AdvancedYardLayoutOptimizer._place_container_anywhere`. -/
def place_container_anywhere (c : Container) (st : PlanState) : Bool × PlanState :=
  place_anywhere_go c (st.areas.map (fun kv => kv.1)) st

/-! ## The inbound (carrier-grouped) strategy -/

def mkImportRecord (c : Container) (code : String) (name : String) : PlacementRecord :=
  { position := code
    area := name
    transporter := c.transporter
    port := none
    weight_class := c.weight_class
    size := c.size
    category := c.category
    iso_type := c.iso_type }

/-- Loop body of one tentative group attempt at one zone.  `base` holds
the committed placement map, against which the not-yet-placed test runs. -/
def importAttemptGo (name : String) (base : PlanState) :
    List Container → PlacementMap × Nat × PlanState → PlacementMap × Nat × PlanState
  | [], acc => acc
  | c :: rest, acc =>
    if mapContains base.placement_map c.unit_number then
      importAttemptGo name base rest acc
    else
      match areasPlace acc.2.2.areas name c with
      | (some code, areas2) =>
        importAttemptGo name base rest
          (mapInsert acc.1 c.unit_number (mkImportRecord c code name),
           acc.2.1 + 1, { acc.2.2 with areas := areas2 })
      | (none, _) => importAttemptGo name base rest acc

/-- One tentative group attempt at one zone: returns the tentative
placements, the number physically placed, and the state (only the areas
change; the committed map is untouched). -/
def importAttempt (name : String) (group : List Container) (st : PlanState) :
    PlacementMap × Nat × PlanState :=
  importAttemptGo name st group ([], 0, st)

/-- Python's `dict.update`: insert the entries in order. -/
def mapUpdate : PlacementMap → PlacementMap → PlacementMap
  | m, [] => m
  | m, kv :: rest => mapUpdate (mapInsert m kv.1 kv.2) rest

/-- Committing a successful group attempt. -/
def importCommit (name : String) (temp : PlacementMap) (cnt : Nat)
    (st : PlanState) : PlanState :=
  { st with
    placement_map := mapUpdate st.placement_map temp
    placed_count := st.placed_count + cnt
    area_usage := usageBump st.area_usage name cnt }

/-- The zone loop of one carrier group, with the
`area_placed_count >= len(trans_containers) * 0.8` test (the float
`0.8` modelled as the exact rational 4/5) and the `break` on success. -/
def importTryZones (group : List Container) :
    List String → PlanState → Bool × PlanState
  | [], st => (false, st)
  | name :: rest, st =>
    let att := importAttempt name group st
    if (att.2.1 : ℚ) ≥ (group.length : ℚ) * (4 / 5) then
      (true, importCommit name att.1 att.2.1 att.2.2)
    else importTryZones group rest att.2.2

/-- The `if not group_placed` per-container fallback of the import
strategy (the membership test is inside the loop). -/
def importFallback : List Container → PlanState → PlanState
  | [], st => st
  | c :: rest, st =>
    if mapContains st.placement_map c.unit_number then importFallback rest st
    else
      let pr := place_container_anywhere c st
      importFallback rest
        (if pr.1 then { pr.2 with placed_count := pr.2.placed_count + 1 } else pr.2)

/-- Suitable zones for a carrier group: zones whose permitted set
contains every weight class present in the group, in declaration order. -/
def suitableFor (areas : Areas) (group : List Container) : List String :=
  (areas.filter (fun kv =>
    group.all (fun c => kv.2.allowed_weight_classes.contains c.weight_class))).map
    (fun kv => kv.1)

/-- Processing of one carrier group. -/
def importGroupStep (st : PlanState) (kv : Option String × List Container) :
    PlanState :=
  let suitable := suitableFor st.areas kv.2
  let tz := importTryZones kv.2 suitable st
  if tz.1 then tz.2 else importFallback kv.2 tz.2

/-- The outcome of one strategy run: the compiled result (`none` is the
`ZeroDivisionError` fault), the final zone table, the leftover oracle. -/
structure RunOut where
  result : Option Result
  areas : Areas
  rng : List Nat
  deriving DecidableEq

/-- The loop over the carrier groups. -/
def importGroupsGo : List (Option String × List Container) → PlanState → PlanState
  | [], st => st
  | kv :: rest, st => importGroupsGo rest (importGroupStep st kv)

def initState (areas : Areas) : PlanState :=
  { areas := areas
    placement_map := []
    area_usage := areas.map (fun kv => (kv.1, 0))
    placed_count := 0 }

/-- `AdvancedYardLayoutOptimizer.optimize_import_layout`. -/
def optimize_import_layout (areas : Areas) (rng : List Nat)
    (containers : List Container) (cfg : List (String × List Nat)) : RunOut :=
  let areas1 := set_area_weight_classes areas cfg
  let pr := assign_weight_classes rng containers
  let groups := groupByKey (fun c => c.transporter) pr.1
  let st1 := importGroupsGo groups (initState areas1)
  { result := compile_result st1.areas pr.1 st1.placement_map st1.area_usage ("IMPORT")
    areas := st1.areas
    rng := pr.2 }

/-! ## The outbound (port + weight-grouped) strategy -/

def mkExportRecord (c : Container) (code : String) (name : String) (wc : Nat) :
    PlacementRecord :=
  { position := code
    area := name
    transporter := none
    port := c.port
    weight_class := wc
    size := c.size
    category := c.category
    iso_type := c.iso_type }

/-- One pass of a (port, weight-class) group over one zone: iterate a
snapshot, place what fits, keep the remainder (`list.remove` on
success). -/
def exportPassStep (name : String) (wc : Nat)
    (acc : List Container × PlanState) (c : Container) :
    List Container × PlanState :=
  if mapContains acc.2.placement_map c.unit_number then (acc.1 ++ [c], acc.2)
  else
    match areasPlace acc.2.areas name c with
    | (none, _) => (acc.1 ++ [c], acc.2)
    | (some code, areas2) =>
      (acc.1,
       { areas := areas2
         placement_map := mapInsert acc.2.placement_map c.unit_number
           (mkExportRecord c code name wc)
         area_usage := usageBump acc.2.area_usage name 1
         placed_count := acc.2.placed_count + 1 })

/-- Iterating one zone pass over a snapshot of the working list. -/
def exportPassGo (name : String) (wc : Nat) :
    List Container → List Container × PlanState → List Container × PlanState
  | [], acc => acc
  | c :: rest, acc => exportPassGo name wc rest (exportPassStep name wc acc c)

/-- The zone loop of one (port, weight-class) group, draining the
working list; `break` when the working list is exhausted. -/
def exportDrain (wc : Nat) : List String → List Container → PlanState → PlanState
  | [], _, st => st
  | name :: rest, work, st =>
    if work.isEmpty then st
    else
      let pr := exportPassGo name wc work ([], st)
      exportDrain wc rest pr.1 pr.2

/-- Processing of one (port, weight-class) group. -/
def exportGroupStep (st : PlanState) (wkv : Nat × List Container) : PlanState :=
  let suitable := (st.areas.filter (fun kv =>
    kv.2.allowed_weight_classes.contains wkv.1)).map (fun kv => kv.1)
  exportDrain wkv.1 suitable wkv.2 st

/-- Per-container fallback step of the export remainder loop (no
membership recheck: the remainder was filtered once). -/
def exportFallbackStep (st : PlanState) (c : Container) : PlanState :=
  let pr := place_container_anywhere c st
  if pr.1 then { pr.2 with placed_count := pr.2.placed_count + 1 } else pr.2

def exportFallbackGo : List Container → PlanState → PlanState
  | [], st => st
  | c :: rest, st => exportFallbackGo rest (exportFallbackStep st c)

/-- The loop over the weight-class groups of one port. -/
def exportWcGo : List (Nat × List Container) → PlanState → PlanState
  | [], st => st
  | wkv :: rest, st => exportWcGo rest (exportGroupStep st wkv)

/-- The loop over the port groups. -/
def exportPortGo : List (Option String × List Container) → PlanState → PlanState
  | [], st => st
  | pkv :: rest, st =>
    exportPortGo rest (exportWcGo (groupByKey (fun c => c.weight_class) pkv.2) st)

/-- `AdvancedYardLayoutOptimizer.optimize_export_layout`. -/
def optimize_export_layout (areas : Areas) (rng : List Nat)
    (containers : List Container) (cfg : List (String × List Nat)) : RunOut :=
  let areas1 := set_area_weight_classes areas cfg
  let pr := assign_weight_classes rng containers
  let portGroups := groupByKey (fun c => c.port) pr.1
  let st1 := exportPortGo portGroups (initState areas1)
  let remaining := pr.1.filter (fun c => !(mapContains st1.placement_map c.unit_number))
  let st2 := exportFallbackGo remaining st1
  { result := compile_result st2.areas pr.1 st2.placement_map st2.area_usage ("EXPORT")
    areas := st2.areas
    rng := pr.2 }

/-! ## Proposal generation -/

/-- Python's banker's rounding (`round`), used for the proposal score. -/
def pythonRound (q : ℚ) : ℤ :=
  let f := ⌊q⌋
  let r := q - (f : ℚ)
  if r < 1 / 2 then f
  else if (1 : ℚ) / 2 < r then f + 1
  else if 2 ∣ f then f else f + 1

structure Proposal where
  id : Nat
  score : ℤ
  space_utilization : ℚ
  grouping_efficiency : ℚ
  placement_map : PlacementMap
  containers_placed : Nat
  total_containers : Nat
  strategy : String
  deriving DecidableEq

def mkProposal (i : Nat) (res : Result) : Proposal :=
  { id := i + 1
    score := pythonRound res.efficiency
    space_utilization := res.space_utilization
    grouping_efficiency := res.grouping_efficiency
    placement_map := res.placement_map
    containers_placed := res.total_placed
    total_containers := res.total_containers
    strategy := ("Proposal ") ++ toString (i + 1) }

/-- Iterations of `generate_multiple_proposals`: each one resets the
zone table to `init_areas` and re-runs the matching strategy; a faulting
run aborts the whole call (`none`). -/
def generate_go (containers : List Container) (op : String)
    (cfg : List (String × List Nat)) :
    Nat → Nat → List Nat → Option (List Proposal × List Nat)
  | 0, _, rng => some ([], rng)
  | k + 1, i, rng =>
    let ro := if op == ("IMPORT") then
        optimize_import_layout init_areas rng containers cfg
      else optimize_export_layout init_areas rng containers cfg
    match ro.result with
    | none => none
    | some res =>
      match generate_go containers op cfg k (i + 1) ro.rng with
      | none => none
      | some pr => some (mkProposal i res :: pr.1, pr.2)

/-- `AdvancedYardLayoutOptimizer.generate_multiple_proposals`. -/
def generate_multiple_proposals (rng : List Nat) (containers : List Container)
    (op : String) (cfg : List (String × List Nat)) (n : Nat) :
    Option (List Proposal × List Nat) :=
  generate_go containers op cfg n 0 rng

/-! ## Specification-side definitions

These definitions follow the wording of the specification / claims and
are compared against the source-derived definitions above. -/

/-- The slot-search conditions as worded by the spec: matching length
category, positive remaining-tier counter, permitted weight class, and
reefer eligibility for reefer cargo. -/
abbrev goodSlot (p : YardPosition) (c : Container) (allowed : List Nat) : Prop :=
  p.container_length = some c.size ∧ 0 < p.available_tiers ∧
  c.weight_class ∈ allowed ∧
  (c.category = ("Reefer") → p.is_reefer_position = true)

/-- The slot order as worded by the spec: row ascending, skipping rows
that are multiples of 4, then column ascending. -/
def specSlotOrder : List (Nat × Char) :=
  ((List.range' 1 31).filter (fun r => !(r % 4 == 0))).flatMap
    (fun r => (List.range' 65 21).map (fun i => (r, Char.ofNat i)))

/-- The zone loop of one carrier group as worded by the claim: commit
and stop at the first candidate zone where the fraction of the group
successfully placed is at least 0.8. -/
def specTryZones (group : List Container) :
    List String → PlanState → Bool × PlanState
  | [], st => (false, st)
  | name :: rest, st =>
    let att := importAttempt name group st
    if ((att.2.1 : ℚ) / (group.length : ℚ)) ≥ 4 / 5 then
      (true, importCommit name att.1 att.2.1 att.2.2)
    else specTryZones group rest att.2.2

/-- Best-effort placement as worded by the claim: the container is
placed into the first zone, in declaration order, offering a compatible
slot (no separate weight-class pre-filter). -/
def spec_anywhere_go (c : Container) : List String → PlanState → Bool × PlanState
  | [], st => (false, st)
  | name :: rest, st =>
    match areasPlace st.areas name c with
    | (some code, areas2) =>
      (true, { st with
               areas := areas2
               placement_map := mapInsert st.placement_map c.unit_number
                 (mkAnyRecord c code name)
               area_usage := usageBump st.area_usage name 1 })
    | (none, _) => spec_anywhere_go c rest st

def spec_place_anywhere (c : Container) (st : PlanState) : Bool × PlanState :=
  spec_anywhere_go c (st.areas.map (fun kv => kv.1)) st

/-- After a group misses the threshold everywhere, each still-unplaced
container of the group is retried individually. -/
def specFallback : List Container → PlanState → PlanState
  | [], st => st
  | c :: rest, st =>
    if mapContains st.placement_map c.unit_number then specFallback rest st
    else
      let pr := spec_place_anywhere c st
      specFallback rest
        (if pr.1 then { pr.2 with placed_count := pr.2.placed_count + 1 } else pr.2)

def specGroupStep (st : PlanState) (kv : Option String × List Container) :
    PlanState :=
  let suitable := suitableFor st.areas kv.2
  let tz := specTryZones kv.2 suitable st
  if tz.1 then tz.2 else specFallback kv.2 tz.2

def specGroupsGo : List (Option String × List Container) → PlanState → PlanState
  | [], st => st
  | kv :: rest, st => specGroupsGo rest (specGroupStep st kv)

/-- The inbound strategy as worded by the claim (C2). -/
def import_layout_spec (areas : Areas) (rng : List Nat)
    (containers : List Container) (cfg : List (String × List Nat)) : RunOut :=
  let areas1 := set_area_weight_classes areas cfg
  let pr := assign_weight_classes rng containers
  let groups := groupByKey (fun c => c.transporter) pr.1
  let st1 := specGroupsGo groups (initState areas1)
  { result := compile_result st1.areas pr.1 st1.placement_map st1.area_usage ("IMPORT")
    areas := st1.areas
    rng := pr.2 }

/-- Band membership: the weight lies in the closed interval of band `k`
of the source's band table. -/
def bandMem (w : ℚ) (k : Nat) : Prop :=
  ∃ b ∈ weight_classes, b.1 = k ∧ b.2.1 ≤ w ∧ w ≤ b.2.2

/-! ## Run invariants -/

/-- Cap invariant of one slot: the remaining-tier counter is
non-negative and complements the stack occupancy up to the stack
height. -/
abbrev PosCapOK (p : YardPosition) : Prop :=
  0 ≤ p.available_tiers ∧
  p.available_tiers + (p.containers.length : Int) = p.max_tiers

/-- Reefer invariant of one slot: only reefer-eligible slots hold
reefer cargo. -/
abbrev PosReeferOK (p : YardPosition) : Prop :=
  ∀ c ∈ p.containers, c.category = ("Reefer") → p.is_reefer_position = true

abbrev PosOK (p : YardPosition) : Prop :=
  PosCapOK p ∧ PosReeferOK p

abbrev AreasOK (areas : Areas) : Prop :=
  ∀ kv ∈ areas, ∀ p ∈ kv.2.positions, PosOK p

/-- Soundness of one committed placement record: its zone exists and
permits its weight class, and it stems from one of the run's
containers. -/
abbrev RecordOK (areas : Areas) (cs : List Container)
    (ur : String × PlacementRecord) : Prop :=
  (∃ kv ∈ areas, kv.1 = ur.2.area ∧
     ur.2.weight_class ∈ kv.2.allowed_weight_classes) ∧
  (∃ c ∈ cs, ur.1 = c.unit_number ∧ ur.2.weight_class = c.weight_class)

abbrev StOK (cs : List Container) (st : PlanState) : Prop :=
  AreasOK st.areas ∧ ∀ ur ∈ st.placement_map, RecordOK st.areas cs ur

/-- Evolution of one slot during a run: all static fields are
preserved, the remaining-tier counter never increases, and the stack
only grows at the top. -/
def PosMono (p q : YardPosition) : Prop :=
  q.area = p.area ∧ q.row = p.row ∧ q.column = p.column ∧
  q.max_tiers = p.max_tiers ∧ q.container_length = p.container_length ∧
  q.is_reefer_position = p.is_reefer_position ∧
  q.available_tiers ≤ p.available_tiers ∧
  ∃ t, q.containers = p.containers ++ t

def AreaMono (a b : YardArea) : Prop :=
  b.name = a.name ∧ b.allowed_weight_classes = a.allowed_weight_classes ∧
  b.max_stack_height = a.max_stack_height ∧
  List.Forall₂ PosMono a.positions b.positions

def AreasMono (x y : Areas) : Prop :=
  List.Forall₂ (fun kv kw => kw.1 = kv.1 ∧ AreaMono kv.2 kw.2) x y

/-- Canonical weight-class assignment for fully weighted containers. -/
def canonC (c : Container) : Container :=
  { c with weight_class := findBand (c.weight.getD 0) }

/-- Canonical container construction when the ISO code resolves and the
weight is present (no randomness consumed). -/
def canonMk (r : RawRecord) : Container :=
  { unit_number := r.unit_number
    iso_type := r.iso_type
    transporter := r.transporter
    weight := r.weight
    port := r.port
    category := r.category
    size := if strContains r.iso_type ("45") then 12 else 6
    weight_class := findBand (r.weight.getD 0)
    priority := determine_priority r.category }

/-- A raw record is deterministic when its ISO code matches one of the
length patterns and its weight is present. -/
abbrev DeterministicRec (r : RawRecord) : Prop :=
  (strContains r.iso_type ("45") || strContains r.iso_type ("22") ||
    strContains r.iso_type ("20")) = true ∧ r.weight ≠ none

/-- Total remaining-tier capacity of one zone. -/
def area_avail_of (a : YardArea) : Int :=
  (a.positions.map (fun p => p.available_tiers)).sum

/-- Total remaining-tier capacity of the whole yard. -/
def total_avail_of (areas : Areas) : Int :=
  (areas.map (fun kv => area_avail_of kv.2)).sum

/-- A placeholder result (used only to name evaluated results in closed
witness statements). -/
def dummyResult : Result :=
  { placement_map := []
    efficiency := 0
    space_utilization := 0
    grouping_efficiency := 0
    total_placed := 0
    total_containers := 0
    details := ("") }

/-! ## Concrete gadgets used by witnesses -/

/-- A two-slot zone: a 12 m slot (row 2) ahead of a 6 m slot (row 1). -/
def c1Zone : YardArea :=
  { name := ("Z")
    allowed_weight_classes := [1, 2, 3, 4, 5, 6, 7, 8]
    max_stack_height := 4
    positions := [mkYardPosition ("Z") 2 (Char.ofNat 65) 4,
                  mkYardPosition ("Z") 1 (Char.ofNat 65) 4] }

/-- A short standard container of weight class 1. -/
def c1Cont : Container :=
  { unit_number := ("U1")
    iso_type := ("22G1")
    transporter := some ("T")
    weight := some 10
    port := none
    category := ("Standard")
    size := 6
    weight_class := 1
    priority := 3 }

/-- A tiny two-zone yard with a single one-tier slot per zone. -/
def c9Areas : Areas :=
  [(("A1"), { name := ("A1")
              allowed_weight_classes := [1]
              max_stack_height := 1
              positions := [mkYardPosition ("A1") 1 (Char.ofNat 65) 1] }),
   (("A2"), { name := ("A2")
              allowed_weight_classes := [1]
              max_stack_height := 1
              positions := [mkYardPosition ("A2") 1 (Char.ofNat 65) 1] })]

/-- A short standard container of one carrier group. -/
def c9Std : Container :=
  { unit_number := ("X1")
    iso_type := ("22G1")
    transporter := some ("T")
    weight := some 10
    port := none
    category := ("Standard")
    size := 6
    weight_class := 1
    priority := 3 }

/-- A short reefer container of the same carrier group. -/
def c9Reefer : Container :=
  { unit_number := ("Y1")
    iso_type := ("22R1")
    transporter := some ("T")
    weight := some 10
    port := none
    category := ("Reefer")
    size := 6
    weight_class := 1
    priority := 2 }

/-- An export container whose 40 t weight classifies as band 8. -/
def c8Cont : Container :=
  { unit_number := ("E1")
    iso_type := ("45G1")
    transporter := none
    weight := some 40
    port := some ("X")
    category := ("Standard")
    size := 12
    weight_class := 8
    priority := 3 }

/-- A configuration permitting only class 1 in every zone. -/
def c8Cfg : List (String × List Nat) :=
  [(("M1"), [1]), (("M2"), [1]), (("W1"), [1]),
   (("W2"), [1]), (("Q1"), [1]), (("Q2"), [1])]

/-- A fully deterministic raw outbound record. -/
def c7Rec : RawRecord :=
  { unit_number := ("D1")
    iso_type := ("22G1")
    transporter := none
    weight := some 10
    port := some ("X")
    category := ("Standard") }

/-! # Theorems -/

/-! ## Slot search and placement (C1) -/

theorem can_place_iff (p : YardPosition) (c : Container) (allowed : List Nat) :
    p.can_place_container c allowed = true ↔ goodSlot p c allowed := by
  unfold YardPosition.can_place_container goodSlot
  split_ifs with h1 h2 h3 h4
  · simp only [false_iff]
    intro h
    exact absurd h.1 (by simpa using h1)
  · simp only [false_iff]
    intro h
    omega
  · simp only [false_iff]
    intro h
    exact absurd h.2.2.1 (by simpa using h3)
  · simp only [false_iff]
    intro h
    rcases Bool.and_eq_true_iff.mp h4 with ⟨hc, hr⟩
    have := h.2.2.2 (by simpa using hc)
    simp [this] at hr
  · simp only [true_iff]
    refine ⟨by simpa using h1, by omega, by simpa using h3, ?_⟩
    intro hc
    by_contra hr
    apply h4
    simp [hc, hr]

theorem place_container_none_iff (a : YardArea) (c : Container) :
    (a.place_container c).1 = none ↔
      ∀ p ∈ a.positions, ¬ goodSlot p c a.allowed_weight_classes := by
  unfold YardArea.place_container
  cases h : a.positions.findIdx?
      (fun p => p.can_place_container c a.allowed_weight_classes) with
  | none =>
    rw [List.findIdx?_eq_none_iff] at h
    dsimp only
    simp only [true_iff]
    intro p hp hgood
    have := h p hp
    rw [← can_place_iff p c a.allowed_weight_classes] at hgood
    simp [hgood] at this
  | some i =>
    rw [List.findIdx?_eq_some_iff_getElem] at h
    rcases h with ⟨hi, hpi, hmin⟩
    dsimp only
    rw [List.getElem?_eq_getElem hi]
    dsimp only
    have hgood : goodSlot a.positions[i] c a.allowed_weight_classes :=
      (can_place_iff _ _ _).mp hpi
    have hav : ¬ (a.positions[i].available_tiers ≤ 0) := by
      have := hgood.2.1; omega
    unfold YardPosition.place_container
    rw [if_neg hav]
    simp only [false_iff, not_forall]
    constructor
    · intro hcontra
      exact absurd hcontra (by simp)
    · intro hall
      exact absurd hgood (hall a.positions[i] (List.getElem_mem hi))

theorem place_container_first_fit (a : YardArea) (c : Container) (i : Nat)
    (hi : i < a.positions.length)
    (hgood : goodSlot (a.positions.get ⟨i, hi⟩) c a.allowed_weight_classes)
    (hmin : ∀ j (hj : j < a.positions.length), j < i →
      ¬ goodSlot (a.positions.get ⟨j, hj⟩) c a.allowed_weight_classes) :
    a.place_container c =
      (some ((a.positions.get ⟨i, hi⟩).area ++
          toString (a.positions.get ⟨i, hi⟩).row ++
          toString (a.positions.get ⟨i, hi⟩).column ++
          toString ((a.positions.get ⟨i, hi⟩).containers.length + 1)),
       { a with positions := a.positions.set i ({ a.positions.get ⟨i, hi⟩ with
          containers := (a.positions.get ⟨i, hi⟩).containers ++ [c]
          available_tiers := (a.positions.get ⟨i, hi⟩).available_tiers - 1 }) }) := by
  simp only [List.get_eq_getElem] at hgood hmin ⊢
  have hfind : a.positions.findIdx?
      (fun p => p.can_place_container c a.allowed_weight_classes) = some i := by
    rw [List.findIdx?_eq_some_iff_getElem]
    refine ⟨hi, (can_place_iff _ _ _).mpr hgood, ?_⟩
    intro j hj
    have := hmin j (Nat.lt_trans hj hi) hj
    rw [← can_place_iff _ c a.allowed_weight_classes] at this
    simpa using this
  unfold YardArea.place_container
  rw [hfind]
  dsimp only
  rw [List.getElem?_eq_getElem hi]
  dsimp only
  have hav : ¬ (a.positions[i].available_tiers ≤ 0) := by
    have := hgood.2.1; omega
  unfold YardPosition.place_container
  rw [if_neg hav]
  dsimp only
  rw [if_pos rfl]
  unfold YardPosition.get_position_code YardPosition.get_position_tier
  simp

set_option maxRecDepth 10000 in
theorem init_positions_order (name : String) (h : Int) :
    (init_positions name h).map (fun p => (p.row, p.column)) = specSlotOrder := rfl

theorem init_positions_area (name : String) (h : Int) :
    ∀ p ∈ init_positions name h, p.area = name := by
  intro p hp
  unfold init_positions at hp
  simp only [List.mem_flatMap] at hp
  rcases hp with ⟨r, _, j, _, hpj⟩
  split at hpj
  · simp at hpj
  · simp only [List.mem_singleton] at hpj
    subst hpj
    rfl

/-- C1: the zone placement search scans the slot inventory in its fixed
construction order (row ascending, skipping rows that are multiples
of 4, then column ascending; every slot carries the zone name), places
the container into the first slot satisfying the four conditions of
`goodSlot` (matching length category, positive remaining-tier counter,
permitted weight class, reefer eligibility for reefer cargo),
decrementing that slot's remaining-tier counter and returning the
position code composed of zone name, row, column and the new occupancy
depth; it returns `none` exactly when no slot in the zone satisfies all
the conditions. -/
theorem c1_zone_place_first_fit :
    (∀ (name : String) (h : Int),
      (init_positions name h).map (fun p => (p.row, p.column)) = specSlotOrder ∧
      ∀ p ∈ init_positions name h, p.area = name) ∧
    (∀ (a : YardArea) (c : Container),
      ((a.place_container c).1 = none ↔
        ∀ p ∈ a.positions, ¬ goodSlot p c a.allowed_weight_classes) ∧
      (∀ i (hi : i < a.positions.length),
        goodSlot (a.positions.get ⟨i, hi⟩) c a.allowed_weight_classes →
        (∀ j (hj : j < a.positions.length), j < i →
          ¬ goodSlot (a.positions.get ⟨j, hj⟩) c a.allowed_weight_classes) →
        a.place_container c =
          (some ((a.positions.get ⟨i, hi⟩).area ++
              toString (a.positions.get ⟨i, hi⟩).row ++
              toString (a.positions.get ⟨i, hi⟩).column ++
              toString ((a.positions.get ⟨i, hi⟩).containers.length + 1)),
           { a with positions := a.positions.set i ({ a.positions.get ⟨i, hi⟩ with
              containers := (a.positions.get ⟨i, hi⟩).containers ++ [c]
              available_tiers :=
                (a.positions.get ⟨i, hi⟩).available_tiers - 1 }) }))) :=
  ⟨fun name h => ⟨init_positions_order name h, init_positions_area name h⟩,
   fun a c => ⟨place_container_none_iff a c,
     fun i hi hg hm => place_container_first_fit a c i hi hg hm⟩⟩

theorem c1_zone_place_first_fit_witness :
    goodSlot (c1Zone.positions.get ⟨1, by decide⟩) c1Cont
      c1Zone.allowed_weight_classes ∧
    (c1Zone.place_container c1Cont).1 = some ("Z1A1") := by
  constructor
  · decide
  · have h := (c1_zone_place_first_fit.2 c1Zone c1Cont).2 1 (by decide)
      (by decide) (by decide)
    rw [h]
    decide

/-! ## Weight bands (C3, C4) -/

theorem findBand_of_mem (w : ℚ) (k : Nat) (h : bandMem w k) : findBand w = k := by
  rcases h with ⟨b, hb, hk, hlo, hhi⟩
  subst hk
  fin_cases hb <;>
    simp only at hlo hhi <;>
    simp only [findBand, findBandAux, weight_classes] <;>
    split_ifs <;>
    first
      | rfl
      | (exfalso; exact absurd (And.intro hlo hhi) (by assumption))
      | (exfalso; obtain ⟨u, v⟩ : _ ∧ _ := (by assumption); linarith)

theorem bandMem_unique (w : ℚ) (k1 k2 : Nat) (h1 : bandMem w k1)
    (h2 : bandMem w k2) : k1 = k2 := by
  rcases h1 with ⟨b1, hb1, hk1, hlo1, hhi1⟩
  rcases h2 with ⟨b2, hb2, hk2, hlo2, hhi2⟩
  subst hk1; subst hk2
  fin_cases hb1 <;> fin_cases hb2 <;>
    simp only at hlo1 hhi1 hlo2 hhi2 <;>
    first
      | rfl
      | (exfalso; linarith)

theorem findBand_of_no_mem (w : ℚ) (h : ¬ ∃ k, bandMem w k) : findBand w = 8 := by
  simp only [findBand, findBandAux, weight_classes]
  split_ifs with h1 h2 h3 h4 h5 h6 h7 h8 <;>
    first
      | rfl
      | (exfalso; apply h
         first
           | exact ⟨1, (1, 0, 18.9), by simp [weight_classes], rfl, h1.1, h1.2⟩
           | exact ⟨2, (2, 19, 23.4), by simp [weight_classes], rfl, h2.1, h2.2⟩
           | exact ⟨3, (3, 23.5, 25.4), by simp [weight_classes], rfl, h3.1, h3.2⟩
           | exact ⟨4, (4, 25.5, 26.6), by simp [weight_classes], rfl, h4.1, h4.2⟩
           | exact ⟨5, (5, 26.7, 28.4), by simp [weight_classes], rfl, h5.1, h5.2⟩
           | exact ⟨6, (6, 28.5, 30), by simp [weight_classes], rfl, h6.1, h6.2⟩
           | exact ⟨7, (7, 30.1, 31), by simp [weight_classes], rfl, h7.1, h7.2⟩)

/-- C3 counterexample: the claim "every non-negative gross weight up to
50 tons is contained in exactly one band" fails at the gap weight
18.95: no band of the source's table contains it (the classifier falls
through to band 8). -/
theorem c3_counterexample :
    (0 : ℚ) ≤ 18.95 ∧ (18.95 : ℚ) ≤ 50 ∧
    (¬ ∃ k, bandMem (18.95 : ℚ) k) ∧ findBand (18.95 : ℚ) = 8 := by
  refine ⟨by decide, by decide, ?_, by decide⟩
  rintro ⟨k, b, hb, hk, hlo, hhi⟩
  fin_cases hb <;> simp only at hlo hhi <;> linarith

/-- C3 (amended): the eight bands are pairwise disjoint but not
exhaustive over [0, 50]; a non-negative weight contained in some band
lies in exactly one band and classifies there, while a weight contained
in no band (the boundary gaps such as 18.95, and every weight above 50)
classifies as band 8. -/
theorem c3_bands_disjoint_not_exhaustive (w : ℚ) (_hw : 0 ≤ w) :
    (∀ k1 k2, bandMem w k1 → bandMem w k2 → k1 = k2) ∧
    (∀ k, bandMem w k → findBand w = k) ∧
    ((¬ ∃ k, bandMem w k) → findBand w = 8) ∧
    (50 < w → findBand w = 8) := by
  refine ⟨fun k1 k2 h1 h2 => bandMem_unique w k1 k2 h1 h2,
    fun k h => findBand_of_mem w k h, findBand_of_no_mem w, ?_⟩
  intro h50
  apply findBand_of_no_mem
  rintro ⟨k, b, hb, hk, hlo, hhi⟩
  fin_cases hb <;> simp only at hhi <;> linarith

theorem c3_bands_disjoint_not_exhaustive_witness :
    (0 : ℚ) ≤ 18.95 ∧
    ((¬ ∃ k, bandMem (18.95 : ℚ) k) → findBand (18.95 : ℚ) = 8) :=
  ⟨by decide, (c3_bands_disjoint_not_exhaustive (18.95 : ℚ) (by decide)).2.2.1⟩

/-- C4: for a present gross weight, weight classification returns the
band whose closed interval contains the weight, and band 8 when no
interval contains it; in particular 18.9 classifies as band 1, 19.0 as
band 2, 50.0 as band 8 and 60.0 as band 8. -/
theorem c4_weight_classification :
    (∀ (w : ℚ) (rng : List Nat),
      (determine_weight_class (some w) rng).1 = findBand w) ∧
    (∀ (w : ℚ) (k : Nat), bandMem w k → findBand w = k) ∧
    (∀ w : ℚ, (¬ ∃ k, bandMem w k) → findBand w = 8) ∧
    findBand (18.9 : ℚ) = 1 ∧ findBand (19 : ℚ) = 2 ∧
    findBand (50 : ℚ) = 8 ∧ findBand (60 : ℚ) = 8 :=
  ⟨fun w rng => rfl, findBand_of_mem, findBand_of_no_mem,
   by decide, by decide, by decide, by decide⟩

theorem c4_weight_classification_witness :
    bandMem (20 : ℚ) 2 ∧ findBand (20 : ℚ) = 2 :=
  ⟨⟨(2, 19, 23.4), by decide, rfl, by decide, by decide⟩,
   c4_weight_classification.2.1 20 2
     ⟨(2, 19, 23.4), by decide, rfl, by decide, by decide⟩⟩

/-! ## Totality and the division guards (C10) -/

theorem assign_length (rng : List Nat) (cs : List Container) :
    (assign_weight_classes rng cs).1.length = cs.length := by
  induction cs generalizing rng with
  | nil => rfl
  | cons c rest ih =>
    unfold assign_weight_classes
    cases c.weight <;> simp [ih]

theorem compile_result_none_iff (areas : Areas) (cs : List Container)
    (m : PlacementMap) (u : AreaUsage) (op : String) :
    compile_result areas cs m u op = none ↔ cs = [] := by
  unfold compile_result
  dsimp only
  split_ifs with h
  · simp [List.length_eq_zero.mp h]
  · constructor
    · intro hcontra
      simp at hcontra
    · intro hc
      subst hc
      simp at h

/-- C10: compiling a result divides the placed count by the total
container count with no zero guard, so both strategies fault (return
`none`) exactly on the empty container list; the grouping-efficiency
divisions are guarded (empty and singleton maps give 0), and the
space-utilization division is guarded (a yard with zero slots reports
0% utilization instead of faulting). -/
theorem c10_empty_input_faults :
    (∀ (areas : Areas) (rng : List Nat) (cfg : List (String × List Nat))
       (cs : List Container),
      ((optimize_import_layout areas rng cs cfg).result = none ↔ cs = []) ∧
      ((optimize_export_layout areas rng cs cfg).result = none ↔ cs = [])) ∧
    (∀ op : String, calculate_grouping_efficiency [] op = 0) ∧
    (∀ (op : String) (k : String) (r : PlacementRecord),
      calculate_grouping_efficiency [(k, r)] op = 0) ∧
    (∀ (areas : Areas) (cs : List Container) (m : PlacementMap) (u : AreaUsage)
       (op : String), cs ≠ [] → total_positions_of areas = 0 →
      ∃ res, compile_result areas cs m u op = some res ∧
        res.space_utilization = 0) := by
  refine ⟨fun areas rng cfg cs => ⟨?_, ?_⟩, fun op => rfl,
    fun op k r => by simp [calculate_grouping_efficiency, countPairs], ?_⟩
  · show compile_result _ (assign_weight_classes rng cs).1 _ _ _ = none ↔ cs = []
    rw [compile_result_none_iff]
    constructor
    · intro h
      have := assign_length rng cs
      rw [h] at this
      exact List.length_eq_zero.mp this.symm
    · intro h
      subst h
      rfl
  · show compile_result _ (assign_weight_classes rng cs).1 _ _ _ = none ↔ cs = []
    rw [compile_result_none_iff]
    constructor
    · intro h
      have := assign_length rng cs
      rw [h] at this
      exact List.length_eq_zero.mp this.symm
    · intro h
      subst h
      rfl
  · intro areas cs m u op hcs hpos
    unfold compile_result
    dsimp only
    rw [if_neg (by simpa using fun hc => hcs (List.length_eq_zero.mp hc))]
    rw [hpos]
    exact ⟨_, rfl, rfl⟩

theorem c10_empty_input_faults_witness :
    ([c1Cont] ≠ ([] : List Container)) ∧
    total_positions_of ([] : Areas) = 0 ∧
    ∃ res, compile_result ([] : Areas) [c1Cont] [] [] ("IMPORT") = some res ∧
      res.space_utilization = 0 :=
  ⟨by simp, rfl,
   c10_empty_input_faults.2.2.2 [] [c1Cont] [] [] ("IMPORT") (by simp) rfl⟩

/-! ## The inbound strategy refines its specification (C2) -/

theorem foldl_congr_mem {α β : Type} (l : List α) (f g : β → α → β) :
    (∀ x ∈ l, ∀ s, f s x = g s x) → ∀ init : β, l.foldl f init = l.foldl g init := by
  induction l with
  | nil => intro _ init; rfl
  | cons a rest ih =>
    intro h init
    simp only [List.foldl_cons]
    rw [h a (by simp)]
    exact ih (fun x hx s => h x (by simp [hx]) s) _

theorem addToGroup_nonempty {K : Type} [BEq K] (acc : List (K × List Container))
    (k : K) (c : Container) (h : ∀ kv ∈ acc, kv.2 ≠ []) :
    ∀ kv ∈ addToGroup acc k c, kv.2 ≠ [] := by
  intro kv hkv
  unfold addToGroup at hkv
  split_ifs at hkv with hin
  · rcases List.mem_map.mp hkv with ⟨kw, hkw, hmap⟩
    by_cases he : kw.1 == k
    · rw [if_pos he] at hmap
      subst hmap
      simp
    · rw [if_neg he] at hmap
      subst hmap
      exact h kw hkw
  · rcases List.mem_append.mp hkv with hl | hr
    · exact h kv hl
    · simp only [List.mem_singleton] at hr
      subst hr
      simp

theorem groupByKey_nonempty {K : Type} [BEq K] (f : Container → K)
    (cs : List Container) : ∀ kv ∈ groupByKey f cs, kv.2 ≠ [] := by
  unfold groupByKey
  suffices h : ∀ acc : List (K × List Container), (∀ kv ∈ acc, kv.2 ≠ []) →
      ∀ kv ∈ cs.foldl (fun acc c => addToGroup acc (f c) c) acc, kv.2 ≠ [] by
    exact h [] (by simp)
  induction cs with
  | nil => intro acc hacc; simpa using hacc
  | cons c rest ih =>
    intro acc hacc
    simp only [List.foldl_cons]
    exact ih _ (addToGroup_nonempty acc (f c) c hacc)

theorem import_threshold_iff (cnt n : Nat) (hn : 0 < n) :
    ((cnt : ℚ) ≥ (n : ℚ) * (4 / 5)) ↔ ((cnt : ℚ) / (n : ℚ) ≥ 4 / 5) := by
  have hq : (0 : ℚ) < (n : ℚ) := by exact_mod_cast hn
  rw [ge_iff_le, ge_iff_le, le_div_iff₀ hq, mul_comm]

theorem tryZones_eq (group : List Container) (hg : group ≠ []) :
    ∀ (names : List String) (st : PlanState),
      importTryZones group names st = specTryZones group names st := by
  intro names
  induction names with
  | nil => intro st; rfl
  | cons name rest ih =>
    intro st
    unfold importTryZones specTryZones
    have hn : 0 < group.length := List.length_pos.mpr hg
    rw [if_congr (import_threshold_iff _ _ hn) rfl (ih _)]

theorem can_place_false_of_not_allowed (p : YardPosition) (c : Container)
    (allowed : List Nat) (h : allowed.contains c.weight_class = false) :
    p.can_place_container c allowed = false := by
  unfold YardPosition.can_place_container
  rw [h]
  split_ifs <;> simp_all

theorem area_place_fails_of_not_allowed (a : YardArea) (c : Container)
    (h : a.allowed_weight_classes.contains c.weight_class = false) :
    a.place_container c = (none, a) := by
  unfold YardArea.place_container
  rw [List.findIdx?_eq_none_iff.mpr
    (fun p _ => can_place_false_of_not_allowed p c _ h)]

theorem anywhere_eq (c : Container) :
    ∀ (names : List String) (st : PlanState),
      place_anywhere_go c names st = spec_anywhere_go c names st := by
  intro names
  induction names with
  | nil => intro st; rfl
  | cons name rest ih =>
    intro st
    unfold place_anywhere_go spec_anywhere_go
    cases hget : areasGet st.areas name with
    | none =>
      dsimp only
      unfold areasPlace
      rw [hget]
      exact ih st
    | some a =>
      dsimp only
      by_cases hin : a.allowed_weight_classes.contains c.weight_class
      · rw [if_pos hin]
        cases hpl : areasPlace st.areas name c with
        | mk code areas2 =>
          cases code with
          | none => exact ih st
          | some cd => rfl
      · rw [if_neg hin]
        have hpl : areasPlace st.areas name c = (none, st.areas) := by
          unfold areasPlace
          rw [hget]
          dsimp only
          rw [area_place_fails_of_not_allowed a c (by simpa using hin)]
        rw [hpl]
        exact ih st

theorem place_anywhere_eq (c : Container) (st : PlanState) :
    place_container_anywhere c st = spec_place_anywhere c st :=
  anywhere_eq c _ st

theorem fallback_eq (group : List Container) :
    ∀ st : PlanState, importFallback group st = specFallback group st := by
  induction group with
  | nil => intro st; rfl
  | cons c rest ih =>
    intro st
    unfold importFallback specFallback
    rw [place_anywhere_eq]
    split_ifs <;> exact ih _

theorem groupStep_eq (kv : Option String × List Container) (hkv : kv.2 ≠ [])
    (st : PlanState) : importGroupStep st kv = specGroupStep st kv := by
  unfold importGroupStep specGroupStep
  simp only [tryZones_eq kv.2 hkv, fallback_eq]


theorem groupsGo_eq (groups : List (Option String × List Container))
    (hne : ∀ kv ∈ groups, kv.2 ≠ []) :
    ∀ st : PlanState, importGroupsGo groups st = specGroupsGo groups st := by
  induction groups with
  | nil => intro st; rfl
  | cons kv rest ih =>
    intro st
    unfold importGroupsGo specGroupsGo
    rw [groupStep_eq kv (hne kv (by simp)) st]
    exact ih (fun kw hkw => hne kw (by simp [hkw])) _

/-- C2: the inbound (carrier-grouped) strategy coincides with the
algorithm as the claim words it: for each carrier group the candidate
zones are tried in turn and the group is committed (placements into the
result map, usage counter incremented by the number placed, no further
zones) at the first zone where the *fraction* of the group successfully
placed is at least 0.8; if no candidate zone reaches the threshold,
each still-unplaced container of the group is retried individually and
placed into the first zone, in declaration order, offering a compatible
slot (without the redundant weight-class pre-filter of the source). -/
theorem c2_import_strategy_refines_spec (areas : Areas) (rng : List Nat)
    (cs : List Container) (cfg : List (String × List Nat)) :
    optimize_import_layout areas rng cs cfg = import_layout_spec areas rng cs cfg := by
  unfold optimize_import_layout import_layout_spec
  simp only [groupsGo_eq (groupByKey (fun c => c.transporter)
    (assign_weight_classes rng cs).1)
    (groupByKey_nonempty (fun c => c.transporter) _)]

/-! ## Run invariants: transport and monotonicity helpers -/

theorem forall2_mem_left {α β : Type} {R : α → β → Prop} {l1 : List α}
    {l2 : List β} (h : List.Forall₂ R l1 l2) : ∀ x ∈ l1, ∃ y ∈ l2, R x y := by
  induction h with
  | nil => intro x hx; simp at hx
  | cons hr _ ih =>
    intro x hx
    rcases List.mem_cons.mp hx with rfl | hx2
    · exact ⟨_, by simp, hr⟩
    · rcases ih x hx2 with ⟨y, hy, hxy⟩
      exact ⟨y, by simp [hy], hxy⟩

theorem forall2_mem_right {α β : Type} {R : α → β → Prop} {l1 : List α}
    {l2 : List β} (h : List.Forall₂ R l1 l2) : ∀ y ∈ l2, ∃ x ∈ l1, R x y := by
  induction h with
  | nil => intro y hy; simp at hy
  | cons hr _ ih =>
    intro y hy
    rcases List.mem_cons.mp hy with rfl | hy2
    · exact ⟨_, by simp, hr⟩
    · rcases ih y hy2 with ⟨x, hx, hxy⟩
      exact ⟨x, by simp [hx], hxy⟩

theorem forall2_trans {α : Type} {R : α → α → Prop}
    (ht : ∀ a b c, R a b → R b c → R a c) :
    ∀ {l1 l2 l3 : List α}, List.Forall₂ R l1 l2 → List.Forall₂ R l2 l3 →
      List.Forall₂ R l1 l3 := by
  intro l1 l2 l3 h12
  induction h12 generalizing l3 with
  | nil =>
    intro h23
    cases h23
    exact List.Forall₂.nil
  | cons hr _ ih =>
    intro h23
    cases h23 with
    | cons hr2 h23t => exact List.Forall₂.cons (ht _ _ _ hr hr2) (ih h23t)

theorem posMono_refl (p : YardPosition) : PosMono p p :=
  ⟨rfl, rfl, rfl, rfl, rfl, rfl, le_refl _, [], by simp⟩

theorem posMono_trans (a b c : YardPosition) (h1 : PosMono a b)
    (h2 : PosMono b c) : PosMono a c := by
  obtain ⟨e1, e2, e3, e4, e5, e6, le1, t1, ht1⟩ := h1
  obtain ⟨f1, f2, f3, f4, f5, f6, le2, t2, ht2⟩ := h2
  exact ⟨f1.trans e1, f2.trans e2, f3.trans e3, f4.trans e4, f5.trans e5,
    f6.trans e6, le2.trans le1, t1 ++ t2, by rw [ht2, ht1, List.append_assoc]⟩

theorem areaMono_refl (a : YardArea) : AreaMono a a :=
  ⟨rfl, rfl, rfl, List.forall₂_same.mpr (fun p _ => posMono_refl p)⟩

theorem areaMono_trans (a b c : YardArea) (h1 : AreaMono a b)
    (h2 : AreaMono b c) : AreaMono a c :=
  ⟨h2.1.trans h1.1, h2.2.1.trans h1.2.1, h2.2.2.1.trans h1.2.2.1,
   forall2_trans posMono_trans h1.2.2.2 h2.2.2.2⟩

theorem areasMono_refl (areas : Areas) : AreasMono areas areas :=
  List.forall₂_same.mpr (fun kv _ => ⟨rfl, areaMono_refl kv.2⟩)

theorem areasMono_trans (x y z : Areas) (h1 : AreasMono x y)
    (h2 : AreasMono y z) : AreasMono x z :=
  forall2_trans (fun a b c hab hbc =>
    ⟨hbc.1.trans hab.1, areaMono_trans a.2 b.2 c.2 hab.2 hbc.2⟩) h1 h2

theorem sum_set_int (l : List Int) : ∀ (i : Nat) (hi : i < l.length) (x : Int),
    (l.set i x).sum = l.sum - l.get ⟨i, hi⟩ + x := by
  induction l with
  | nil => intro i hi; simp at hi
  | cons a t ih =>
    intro i hi x
    cases i with
    | zero => simp [List.set]; ring
    | succ j =>
      simp only [List.set, List.sum_cons, List.get]
      rw [ih j (by simpa using hi) x]
      ring

theorem pos_place_eq (p : YardPosition) (c : Container)
    (h : ¬ p.available_tiers ≤ 0) :
    p.place_container c = (true, { p with
      containers := p.containers ++ [c]
      available_tiers := p.available_tiers - 1 }) := by
  unfold YardPosition.place_container
  rw [if_neg h]

theorem area_place_some (a : YardArea) (c : Container) (code : String)
    (a2 : YardArea) (h : a.place_container c = (some code, a2)) :
    c.weight_class ∈ a.allowed_weight_classes ∧
    a2.allowed_weight_classes = a.allowed_weight_classes ∧
    AreaMono a a2 ∧
    ((∀ p ∈ a.positions, PosOK p) → ∀ p ∈ a2.positions, PosOK p) ∧
    area_avail_of a2 + 1 = area_avail_of a := by
  unfold YardArea.place_container at h
  cases hf : a.positions.findIdx?
      (fun p => p.can_place_container c a.allowed_weight_classes) with
  | none => rw [hf] at h; simp at h
  | some i =>
    rw [hf] at h
    dsimp only at h
    obtain ⟨hi, hpred, _⟩ := List.findIdx?_eq_some_iff_getElem.mp hf
    rw [List.getElem?_eq_getElem hi] at h
    dsimp only at h
    have hgood : goodSlot a.positions[i] c a.allowed_weight_classes :=
      (can_place_iff _ _ _).mp hpred
    have hav : ¬ (a.positions[i].available_tiers ≤ 0) := by
      have := hgood.2.1; omega
    rw [pos_place_eq _ _ hav] at h
    dsimp only at h
    rw [if_pos rfl] at h
    have h2 := congrArg Prod.snd h
    dsimp only at h2
    subst h2
    have hmem : a.positions[i] ∈ a.positions := List.getElem_mem hi
    refine ⟨hgood.2.2.1, rfl, ⟨rfl, rfl, rfl, ?_⟩, ?_, ?_⟩
    · rw [List.forall₂_iff_get]
      refine ⟨by simp, ?_⟩
      intro j h1 h2
      by_cases hij : j = i
      · subst hij
        simp only [List.get_eq_getElem, List.getElem_set_self]
        exact ⟨rfl, rfl, rfl, rfl, rfl, rfl, by dsimp only; omega, [c], rfl⟩
      · simp only [List.get_eq_getElem, List.getElem_set_ne (fun he => hij he.symm)]
        exact posMono_refl _
    · intro hall q hq
      rcases List.mem_or_eq_of_mem_set hq with hq2 | rfl
      · exact hall q hq2
      · obtain ⟨⟨h0, hsum⟩, hreef⟩ := hall _ hmem
        have hpos := hgood.2.1
        refine ⟨⟨by dsimp only; omega, ?_⟩, ?_⟩
        · dsimp only
          simp only [List.length_append, List.length_singleton]
          push_cast
          omega
        · intro x hx
          rcases List.mem_append.mp hx with hx2 | hx2
          · exact hreef x hx2
          · simp only [List.mem_singleton] at hx2
            subst hx2
            intro hcat
            exact hgood.2.2.2 hcat
    · unfold area_avail_of
      dsimp only
      rw [List.map_set, sum_set_int _ i (by simpa using hi)]
      simp only [List.get_eq_getElem, List.getElem_map]
      ring

theorem areasGet_mem (areas : Areas) (name : String) (a : YardArea)
    (h : areasGet areas name = some a) : (name, a) ∈ areas := by
  unfold areasGet at h
  rcases Option.map_eq_some'.mp h with ⟨kv, hfind, hkv⟩
  have hmem := List.mem_of_find?_eq_some hfind
  have hpred : kv.1 = name := by simpa using List.find?_some hfind
  obtain ⟨k1, k2⟩ := kv
  simp only at hpred hkv
  subst hpred
  subst hkv
  exact hmem

theorem areasGet_cons_pos (kv : String × YardArea) (rest : Areas) (name : String)
    (hb : (kv.1 == name) = true) : areasGet (kv :: rest) name = some kv.2 := by
  unfold areasGet
  simp [hb]

theorem areasGet_cons_neg (kv : String × YardArea) (rest : Areas) (name : String)
    (hb : (kv.1 == name) = false) : areasGet (kv :: rest) name = areasGet rest name := by
  unfold areasGet
  simp [hb]

theorem areasSet_mono (areas : Areas) (name : String) (a a2 : YardArea)
    (hget : areasGet areas name = some a) (hm : AreaMono a a2) :
    AreasMono areas (areasSet areas name a2) := by
  induction areas with
  | nil => exact List.Forall₂.nil
  | cons kv rest ih =>
    unfold areasSet
    by_cases hb : kv.1 == name
    · rw [if_pos hb]
      have hname : kv.1 = name := by simpa using hb
      have ha : a = kv.2 := by
        rw [areasGet_cons_pos kv rest name hb] at hget
        simpa using hget.symm
      subst ha
      exact List.Forall₂.cons ⟨hname.symm, hm⟩
        (List.forall₂_same.mpr (fun kw _ => ⟨rfl, areaMono_refl kw.2⟩))
    · rw [if_neg hb]
      have hget2 : areasGet rest name = some a := by
        rwa [areasGet_cons_neg kv rest name (by simpa using hb)] at hget
      exact List.Forall₂.cons ⟨rfl, areaMono_refl kv.2⟩ (ih hget2)

theorem areasSet_ok (areas : Areas) (name : String) (a2 : YardArea)
    (P : YardArea → Prop) (hall : ∀ kv ∈ areas, P kv.2) (ha2 : P a2) :
    ∀ kv ∈ areasSet areas name a2, P kv.2 := by
  induction areas with
  | nil => intro kv hkv; simp [areasSet] at hkv
  | cons kw rest ih =>
    intro kv hkv
    unfold areasSet at hkv
    split_ifs at hkv with hb
    · rcases List.mem_cons.mp hkv with rfl | h2
      · exact ha2
      · exact hall kv (by simp [h2])
    · rcases List.mem_cons.mp hkv with rfl | h2
      · exact hall kv (by simp)
      · exact ih (fun kx hkx => hall kx (by simp [hkx])) kv h2

theorem areasSet_mem_new (areas : Areas) (name : String) (a a2 : YardArea)
    (hget : areasGet areas name = some a) :
    (name, a2) ∈ areasSet areas name a2 := by
  induction areas with
  | nil => simp [areasGet] at hget
  | cons kv rest ih =>
    unfold areasSet
    by_cases hb : kv.1 == name
    · rw [if_pos hb]
      simp
    · rw [if_neg hb]
      have hget2 : areasGet rest name = some a := by
        rwa [areasGet_cons_neg kv rest name (by simpa using hb)] at hget
      exact List.mem_cons_of_mem kv (ih hget2)

theorem areasSet_avail (areas : Areas) (name : String) (a a2 : YardArea)
    (hget : areasGet areas name = some a) :
    total_avail_of (areasSet areas name a2) =
      total_avail_of areas - area_avail_of a + area_avail_of a2 := by
  induction areas with
  | nil => simp [areasGet] at hget
  | cons kv rest ih =>
    unfold areasSet
    by_cases hb : kv.1 == name
    · rw [if_pos hb]
      have ha : a = kv.2 := by
        rw [areasGet_cons_pos kv rest name hb] at hget
        simpa using hget.symm
      subst ha
      unfold total_avail_of
      simp only [List.map_cons, List.sum_cons]
      ring
    · rw [if_neg hb]
      have hget2 : areasGet rest name = some a := by
        rwa [areasGet_cons_neg kv rest name (by simpa using hb)] at hget
      unfold total_avail_of at ih ⊢
      simp only [List.map_cons, List.sum_cons]
      rw [ih hget2]
      ring

theorem areasPlace_some (areas : Areas) (name : String) (c : Container)
    (code : String) (areas2 : Areas)
    (h : areasPlace areas name c = (some code, areas2)) :
    AreasMono areas areas2 ∧
    (AreasOK areas → AreasOK areas2) ∧
    (∃ kv ∈ areas2, kv.1 = name ∧ c.weight_class ∈ kv.2.allowed_weight_classes) ∧
    total_avail_of areas2 + 1 = total_avail_of areas := by
  unfold areasPlace at h
  cases hget : areasGet areas name with
  | none => rw [hget] at h; simp at h
  | some a =>
    rw [hget] at h
    dsimp only at h
    cases hp : a.place_container c with
    | mk oc a2 =>
      cases oc with
      | none => rw [hp] at h; simp at h
      | some cd =>
        rw [hp] at h
        dsimp only at h
        have hcode : cd = code := by
          have := congrArg Prod.fst h
          simpa using this
        have harea : areas2 = areasSet areas name a2 := by
          have := congrArg Prod.snd h
          simpa using this.symm
        subst harea
        obtain ⟨hwc, hallow, hmono, hok, havail⟩ := area_place_some a c cd a2 hp
        refine ⟨areasSet_mono areas name a a2 hget hmono, ?_, ?_, ?_⟩
        · intro hA
          exact areasSet_ok areas name a2 (fun ar => ∀ p ∈ ar.positions, PosOK p)
            (fun kv hkv => hA kv hkv)
            (hok (hA (name, a) (areasGet_mem areas name a hget)))
        · refine ⟨(name, a2), areasSet_mem_new areas name a a2 hget, rfl, ?_⟩
          rw [hallow]
          exact hwc
        · rw [areasSet_avail areas name a a2 hget]
          omega

theorem areasPlace_none_snd (areas : Areas) (name : String) (c : Container)
    (x : Areas) (h : areasPlace areas name c = (none, x)) : x = areas := by
  unfold areasPlace at h
  cases hget : areasGet areas name with
  | none =>
    rw [hget] at h
    have := congrArg Prod.snd h
    simpa using this.symm
  | some a =>
    rw [hget] at h
    dsimp only at h
    cases hp : a.place_container c with
    | mk oc a2 =>
      cases oc with
      | none =>
        rw [hp] at h
        have := congrArg Prod.snd h
        simpa using this.symm
      | some cd =>
        rw [hp] at h
        have := congrArg Prod.fst h
        simp at this

theorem mapInsert_recordOK (areas : Areas) (cs : List Container)
    (m : PlacementMap) (k : String) (v : PlacementRecord)
    (hm : ∀ ur ∈ m, RecordOK areas cs ur) (hv : RecordOK areas cs (k, v)) :
    ∀ ur ∈ mapInsert m k v, RecordOK areas cs ur := by
  intro ur hur
  unfold mapInsert at hur
  split_ifs at hur with hc
  · rcases List.mem_map.mp hur with ⟨kw, hkw, hmap⟩
    by_cases hb : kw.1 == k
    · rw [if_pos hb] at hmap
      subst hmap
      exact hv
    · rw [if_neg hb] at hmap
      subst hmap
      exact hm kw hkw
  · rcases List.mem_append.mp hur with hl | hr
    · exact hm ur hl
    · simp only [List.mem_singleton] at hr
      subst hr
      exact hv

theorem recordOK_mono (areas areas2 : Areas) (cs : List Container)
    (ur : String × PlacementRecord) (h : AreasMono areas areas2)
    (hok : RecordOK areas cs ur) : RecordOK areas2 cs ur := by
  obtain ⟨⟨kv, hkv, hname, hmem⟩, hsrc⟩ := hok
  obtain ⟨kw, hkw, hrel⟩ := forall2_mem_left h kv hkv
  refine ⟨⟨kw, hkw, ?_, ?_⟩, hsrc⟩
  · rw [hrel.1, hname]
  · rw [hrel.2.2.1]
    exact hmem

/-- One engine step preserves the state invariant and only shrinks slot
capacity. -/
abbrev StepOK (cs : List Container) (st st2 : PlanState) : Prop :=
  (StOK cs st → StOK cs st2) ∧ AreasMono st.areas st2.areas

theorem stepOK_refl (cs : List Container) (st : PlanState) : StepOK cs st st :=
  ⟨id, areasMono_refl st.areas⟩

theorem stepOK_trans (cs : List Container) (a b c : PlanState)
    (h1 : StepOK cs a b) (h2 : StepOK cs b c) : StepOK cs a c :=
  ⟨fun h => h2.1 (h1.1 h), areasMono_trans a.areas b.areas c.areas h1.2 h2.2⟩

theorem anywhere_go_step (cs : List Container) (c : Container) (hc : c ∈ cs) :
    ∀ (names : List String) (st : PlanState),
      StepOK cs st (place_anywhere_go c names st).2 := by
  intro names
  induction names with
  | nil => intro st; exact stepOK_refl cs st
  | cons name rest ih =>
    intro st
    unfold place_anywhere_go
    cases hget : areasGet st.areas name with
    | none => exact ih st
    | some a =>
      dsimp only
      by_cases hin : a.allowed_weight_classes.contains c.weight_class
      · rw [if_pos hin]
        cases hpl : areasPlace st.areas name c with
        | mk oc areas2 =>
          cases oc with
          | none => exact ih st
          | some code =>
            dsimp only
            obtain ⟨hmono, hok, hex, _⟩ :=
              areasPlace_some st.areas name c code areas2 hpl
            refine ⟨?_, hmono⟩
            intro hst
            obtain ⟨hA, hrec⟩ := hst
            refine ⟨hok hA, ?_⟩
            intro ur hur
            refine mapInsert_recordOK areas2 cs st.placement_map _ _
              (fun uv huv =>
                recordOK_mono st.areas areas2 cs uv hmono (hrec uv huv))
              ?_ ur hur
            exact ⟨hex, ⟨c, hc, rfl, rfl⟩⟩
      · rw [if_neg hin]
        exact ih st

theorem place_anywhere_step (cs : List Container) (c : Container) (hc : c ∈ cs)
    (st : PlanState) : StepOK cs st (place_container_anywhere c st).2 :=
  anywhere_go_step cs c hc _ st

theorem addToGroup_sub {K : Type} [BEq K] (acc : List (K × List Container))
    (k : K) (c : Container) (S : List Container)
    (h : ∀ kv ∈ acc, ∀ x ∈ kv.2, x ∈ S) (hcS : c ∈ S) :
    ∀ kv ∈ addToGroup acc k c, ∀ x ∈ kv.2, x ∈ S := by
  intro kv hkv
  unfold addToGroup at hkv
  split_ifs at hkv with hin
  · rcases List.mem_map.mp hkv with ⟨kw, hkw, hmap⟩
    by_cases hb : kw.1 == k
    · rw [if_pos hb] at hmap
      subst hmap
      intro x hx
      rcases List.mem_append.mp hx with h2 | h2
      · exact h kw hkw x h2
      · simp only [List.mem_singleton] at h2
        subst h2
        exact hcS
    · rw [if_neg hb] at hmap
      subst hmap
      exact h kw hkw
  · rcases List.mem_append.mp hkv with hl | hr
    · exact h kv hl
    · simp only [List.mem_singleton] at hr
      subst hr
      intro x hx
      simp only [List.mem_singleton] at hx
      subst hx
      exact hcS

theorem groupByKey_sub {K : Type} [BEq K] (f : Container → K)
    (cs : List Container) : ∀ kv ∈ groupByKey f cs, ∀ x ∈ kv.2, x ∈ cs := by
  unfold groupByKey
  suffices h : ∀ (S : List Container) (acc : List (K × List Container)),
      (∀ kv ∈ acc, ∀ x ∈ kv.2, x ∈ S) → (∀ c ∈ cs, c ∈ S) →
      ∀ kv ∈ cs.foldl (fun acc c => addToGroup acc (f c) c) acc, ∀ x ∈ kv.2, x ∈ S by
    exact h cs [] (by simp) (fun c hcmem => hcmem)
  induction cs with
  | nil =>
    intro S acc hacc _
    simpa using hacc
  | cons c rest ih =>
    intro S acc hacc hsub
    simp only [List.foldl_cons]
    exact ih S _ (addToGroup_sub acc (f c) c S hacc (hsub c (by simp)))
      (fun x hx => hsub x (by simp [hx]))

theorem groupByKey_key {K : Type} [BEq K] [LawfulBEq K] (f : Container → K)
    (cs : List Container) : ∀ kv ∈ groupByKey f cs, ∀ x ∈ kv.2, f x = kv.1 := by
  unfold groupByKey
  suffices h : ∀ acc : List (K × List Container),
      (∀ kv ∈ acc, ∀ x ∈ kv.2, f x = kv.1) →
      ∀ kv ∈ cs.foldl (fun acc c => addToGroup acc (f c) c) acc,
        ∀ x ∈ kv.2, f x = kv.1 by
    exact h [] (by simp)
  induction cs with
  | nil =>
    intro acc hacc
    simpa using hacc
  | cons c rest ih =>
    intro acc hacc
    simp only [List.foldl_cons]
    refine ih _ ?_
    intro kv hkv
    unfold addToGroup at hkv
    split_ifs at hkv with hin
    · rcases List.mem_map.mp hkv with ⟨kw, hkw, hmap⟩
      by_cases hb : kw.1 == f c
      · rw [if_pos hb] at hmap
        subst hmap
        intro x hx
        rcases List.mem_append.mp hx with h2 | h2
        · exact hacc kw hkw x h2
        · simp only [List.mem_singleton] at h2
          subst h2
          exact (eq_of_beq hb).symm
      · rw [if_neg hb] at hmap
        subst hmap
        exact hacc kw hkw
    · rcases List.mem_append.mp hkv with hl | hr
      · exact hacc kv hl
      · simp only [List.mem_singleton] at hr
        subst hr
        intro x hx
        simp only [List.mem_singleton] at hx
        subst hx
        rfl

theorem importAttemptGo_step (cs : List Container) (name : String)
    (base : PlanState) :
    ∀ (group : List Container), (∀ c ∈ group, c ∈ cs) →
    ∀ acc : PlacementMap × Nat × PlanState,
      StepOK cs acc.2.2 (importAttemptGo name base group acc).2.2 ∧
      (importAttemptGo name base group acc).2.2.placement_map =
        acc.2.2.placement_map ∧
      (importAttemptGo name base group acc).2.2.area_usage =
        acc.2.2.area_usage ∧
      (importAttemptGo name base group acc).2.2.placed_count =
        acc.2.2.placed_count ∧
      ((∀ ur ∈ acc.1, RecordOK acc.2.2.areas cs ur) →
        ∀ ur ∈ (importAttemptGo name base group acc).1,
          RecordOK (importAttemptGo name base group acc).2.2.areas cs ur) ∧
      total_avail_of (importAttemptGo name base group acc).2.2.areas +
        ((importAttemptGo name base group acc).2.1 : Int) =
        total_avail_of acc.2.2.areas + (acc.2.1 : Int) := by
  intro group
  induction group with
  | nil =>
    intro _ acc
    exact ⟨stepOK_refl cs acc.2.2, rfl, rfl, rfl, fun h => h, rfl⟩
  | cons c rest ih =>
    intro hg acc
    have hcS : c ∈ cs := hg c (by simp)
    have hrest : ∀ x ∈ rest, x ∈ cs := fun x hx => hg x (by simp [hx])
    unfold importAttemptGo
    by_cases hmapc : mapContains base.placement_map c.unit_number
    · rw [if_pos hmapc]
      exact ih hrest acc
    · rw [if_neg hmapc]
      cases hpl : areasPlace acc.2.2.areas name c with
      | mk oc areas2 =>
        cases oc with
        | none => exact ih hrest acc
        | some code =>
          dsimp only
          obtain ⟨hmono, hok, hex, havail⟩ :=
            areasPlace_some acc.2.2.areas name c code areas2 hpl
          obtain ⟨ihstep, ihmap, ihusage, ihcount, ihtemp, ihavail⟩ :=
            ih hrest (mapInsert acc.1 c.unit_number (mkImportRecord c code name),
              acc.2.1 + 1, { acc.2.2 with areas := areas2 })
          refine ⟨?_, ihmap, ihusage, ihcount, ?_, ?_⟩
          · refine stepOK_trans cs _ _ _ ⟨?_, hmono⟩ ihstep
            intro hst
            exact ⟨hok hst.1,
              fun ur hur => recordOK_mono acc.2.2.areas areas2 cs ur hmono
                (hst.2 ur hur)⟩
          · intro htemp
            refine ihtemp ?_
            intro ur hur
            refine mapInsert_recordOK areas2 cs acc.1 _ _
              (fun uv huv =>
                recordOK_mono acc.2.2.areas areas2 cs uv hmono (htemp uv huv))
              ⟨hex, ⟨c, hcS, rfl, rfl⟩⟩ ur hur
          · rw [ihavail]
            push_cast
            omega

theorem importAttempt_step (cs : List Container) (name : String)
    (group : List Container) (hg : ∀ c ∈ group, c ∈ cs) (st : PlanState) :
    StepOK cs st (importAttempt name group st).2.2 ∧
    (importAttempt name group st).2.2.placement_map = st.placement_map ∧
    (importAttempt name group st).2.2.area_usage = st.area_usage ∧
    (importAttempt name group st).2.2.placed_count = st.placed_count ∧
    (∀ ur ∈ (importAttempt name group st).1,
      RecordOK (importAttempt name group st).2.2.areas cs ur) ∧
    total_avail_of (importAttempt name group st).2.2.areas +
      ((importAttempt name group st).2.1 : Int) = total_avail_of st.areas := by
  unfold importAttempt
  have h := importAttemptGo_step cs name st group hg ([], 0, st)
  refine ⟨h.1, h.2.1, h.2.2.1, h.2.2.2.1, h.2.2.2.2.1 (by simp), ?_⟩
  have hv := h.2.2.2.2.2
  dsimp only at hv
  push_cast at hv ⊢
  omega

theorem mapUpdate_recordOK (areas : Areas) (cs : List Container) :
    ∀ (temp m : PlacementMap), (∀ ur ∈ m, RecordOK areas cs ur) →
    (∀ ur ∈ temp, RecordOK areas cs ur) →
    ∀ ur ∈ mapUpdate m temp, RecordOK areas cs ur := by
  intro temp
  induction temp with
  | nil => intro m hm _; exact hm
  | cons kv rest ih =>
    intro m hm htemp
    unfold mapUpdate
    exact ih _ (mapInsert_recordOK areas cs m kv.1 kv.2 hm (htemp kv (by simp)))
      (fun ur hur => htemp ur (by simp [hur]))

theorem importCommit_step (cs : List Container) (name : String)
    (temp : PlacementMap) (cnt : Nat) (st : PlanState)
    (htemp : ∀ ur ∈ temp, RecordOK st.areas cs ur) :
    StepOK cs st (importCommit name temp cnt st) := by
  refine ⟨?_, areasMono_refl st.areas⟩
  rintro ⟨hA, hrec⟩
  exact ⟨hA, mapUpdate_recordOK st.areas cs temp st.placement_map hrec htemp⟩

theorem tryZones_step (cs group : List Container) (hg : ∀ c ∈ group, c ∈ cs) :
    ∀ (names : List String) (st : PlanState),
      StepOK cs st (importTryZones group names st).2 := by
  intro names
  induction names with
  | nil => intro st; exact stepOK_refl cs st
  | cons name rest ih =>
    intro st
    unfold importTryZones
    dsimp only
    obtain ⟨hstep, hmap, husage, hcount, htemp, havail⟩ :=
      importAttempt_step cs name group hg st
    by_cases hth : ((importAttempt name group st).2.1 : ℚ) ≥
        ((group.length : Nat) : ℚ) * (4 / 5)
    · rw [if_pos hth]
      exact stepOK_trans cs st _ _ hstep
        (importCommit_step cs name _ _ _ htemp)
    · rw [if_neg hth]
      exact stepOK_trans cs st _ _ hstep (ih _)

theorem importFallback_step (cs : List Container) :
    ∀ group : List Container, (∀ c ∈ group, c ∈ cs) →
    ∀ st : PlanState, StepOK cs st (importFallback group st) := by
  intro group
  induction group with
  | nil => intro _ st; exact stepOK_refl cs st
  | cons c rest ih =>
    intro hg st
    have hrest : ∀ x ∈ rest, x ∈ cs := fun x hx => hg x (by simp [hx])
    unfold importFallback
    by_cases hm : mapContains st.placement_map c.unit_number
    · rw [if_pos hm]
      exact ih hrest st
    · rw [if_neg hm]
      dsimp only
      have h1 := place_anywhere_step cs c (hg c (by simp)) st
      by_cases hp : (place_container_anywhere c st).1
      · rw [if_pos hp]
        refine stepOK_trans cs st _ _ ?_ (ih hrest _)
        exact h1
      · rw [if_neg hp]
        refine stepOK_trans cs st _ _ ?_ (ih hrest _)
        exact h1

theorem importGroupStep_step (cs : List Container)
    (kv : Option String × List Container) (hkv : ∀ c ∈ kv.2, c ∈ cs)
    (st : PlanState) : StepOK cs st (importGroupStep st kv) := by
  unfold importGroupStep
  dsimp only
  by_cases h : (importTryZones kv.2 (suitableFor st.areas kv.2) st).1
  · rw [if_pos h]
    exact tryZones_step cs kv.2 hkv _ st
  · rw [if_neg h]
    exact stepOK_trans cs st _ _ (tryZones_step cs kv.2 hkv _ st)
      (importFallback_step cs kv.2 hkv _)

theorem importGroupsGo_step (cs : List Container) :
    ∀ groups : List (Option String × List Container),
      (∀ kv ∈ groups, ∀ c ∈ kv.2, c ∈ cs) →
    ∀ st : PlanState, StepOK cs st (importGroupsGo groups st) := by
  intro groups
  induction groups with
  | nil => intro _ st; exact stepOK_refl cs st
  | cons kv rest ih =>
    intro hg st
    unfold importGroupsGo
    exact stepOK_trans cs st _ _ (importGroupStep_step cs kv (hg kv (by simp)) st)
      (ih (fun kw hkw => hg kw (by simp [hkw])) _)

theorem init_positions_posOK (name : String) (h : Int) :
    ∀ p ∈ init_positions name h,
      p.containers = [] ∧ p.available_tiers = h ∧ p.max_tiers = h := by
  intro p hp
  unfold init_positions at hp
  simp only [List.mem_flatMap] at hp
  rcases hp with ⟨r, _, j, _, hpj⟩
  split at hpj
  · simp at hpj
  · simp only [List.mem_singleton] at hpj
    subst hpj
    exact ⟨rfl, rfl, rfl⟩

theorem areasOK_init : AreasOK init_areas := by
  intro kv hkv
  unfold init_areas at hkv
  simp only [List.mem_cons, List.mem_singleton, List.not_mem_nil, or_false] at hkv
  rcases hkv with rfl | rfl | rfl | rfl | rfl | rfl <;>
    · intro p hp
      obtain ⟨hc, ha, hm⟩ := init_positions_posOK _ _ p hp
      refine ⟨⟨by rw [ha]; norm_num, by rw [ha, hm, hc]; simp⟩, ?_⟩
      intro x hx
      rw [hc] at hx
      simp at hx

theorem set_area_ok (cfg : List (String × List Nat)) :
    ∀ areas : Areas, AreasOK areas → AreasOK (set_area_weight_classes areas cfg) := by
  induction cfg with
  | nil => intro areas h; exact h
  | cons entry rest ih =>
    intro areas h
    unfold set_area_weight_classes at *
    simp only [List.foldl_cons]
    cases hget : areasGet areas entry.1 with
    | none => exact ih areas h
    | some a =>
      refine ih _ ?_
      refine areasSet_ok areas entry.1 _ (fun ar => ∀ p ∈ ar.positions, PosOK p)
        (fun kw hkw => h kw hkw) ?_
      exact h (entry.1, a) (areasGet_mem areas entry.1 a hget)

theorem exportPassGo_step (cs : List Container) (name : String) (wc : Nat) :
    ∀ work : List Container, (∀ c ∈ work, c ∈ cs ∧ c.weight_class = wc) →
    ∀ acc : List Container × PlanState,
      (∀ c ∈ acc.1, c ∈ cs ∧ c.weight_class = wc) →
      StepOK cs acc.2 (exportPassGo name wc work acc).2 ∧
      (∀ c ∈ (exportPassGo name wc work acc).1, c ∈ cs ∧ c.weight_class = wc) := by
  intro work
  induction work with
  | nil =>
    intro _ acc hacc
    exact ⟨stepOK_refl cs acc.2, hacc⟩
  | cons c rest ih =>
    intro hw acc hacc
    have hc := hw c (by simp)
    have hrest : ∀ x ∈ rest, x ∈ cs ∧ x.weight_class = wc :=
      fun x hx => hw x (by simp [hx])
    have happ : ∀ x ∈ acc.1 ++ [c], x ∈ cs ∧ x.weight_class = wc := by
      intro x hx
      rcases List.mem_append.mp hx with h2 | h2
      · exact hacc x h2
      · simp only [List.mem_singleton] at h2
        subst h2
        exact hc
    unfold exportPassGo exportPassStep
    by_cases hm : mapContains acc.2.placement_map c.unit_number
    · rw [if_pos hm]
      exact ih hrest (acc.1 ++ [c], acc.2) happ
    · rw [if_neg hm]
      cases hpl : areasPlace acc.2.areas name c with
      | mk oc areas2 =>
        cases oc with
        | none => exact ih hrest (acc.1 ++ [c], acc.2) happ
        | some code =>
          dsimp only
          obtain ⟨hmono, hok, hex, _⟩ :=
            areasPlace_some acc.2.areas name c code areas2 hpl
          obtain ⟨ihstep, ihkept⟩ := ih hrest
            (acc.1,
             { areas := areas2
               placement_map := mapInsert acc.2.placement_map c.unit_number
                 (mkExportRecord c code name wc)
               area_usage := usageBump acc.2.area_usage name 1
               placed_count := acc.2.placed_count + 1 }) hacc
          refine ⟨stepOK_trans cs acc.2 _ _ ⟨?_, hmono⟩ ihstep, ihkept⟩
          rintro ⟨hA, hrec⟩
          refine ⟨hok hA, ?_⟩
          intro ur hur
          refine mapInsert_recordOK areas2 cs acc.2.placement_map _ _
            (fun uv huv =>
              recordOK_mono acc.2.areas areas2 cs uv hmono (hrec uv huv))
            ?_ ur hur
          refine ⟨?_, ⟨c, hc.1, rfl, hc.2.symm⟩⟩
          obtain ⟨kv, hkv, hname, hmem⟩ := hex
          refine ⟨kv, hkv, hname, ?_⟩
          show wc ∈ kv.2.allowed_weight_classes
          rw [← hc.2]
          exact hmem

theorem exportDrain_step (cs : List Container) (wc : Nat) :
    ∀ (names : List String) (work : List Container) (st : PlanState),
      (∀ c ∈ work, c ∈ cs ∧ c.weight_class = wc) →
      StepOK cs st (exportDrain wc names work st) := by
  intro names
  induction names with
  | nil => intro _ st _; exact stepOK_refl cs st
  | cons name rest ih =>
    intro work st hw
    unfold exportDrain
    by_cases he : work.isEmpty
    · rw [if_pos he]
      exact stepOK_refl cs st
    · rw [if_neg he]
      dsimp only
      obtain ⟨hstep, hkept⟩ := exportPassGo_step cs name wc work hw ([], st)
        (by simp)
      exact stepOK_trans cs st _ _ hstep (ih _ _ hkept)

theorem exportGroupStep_step (cs : List Container) (wkv : Nat × List Container)
    (h : ∀ c ∈ wkv.2, c ∈ cs ∧ c.weight_class = wkv.1) (st : PlanState) :
    StepOK cs st (exportGroupStep st wkv) := by
  unfold exportGroupStep
  exact exportDrain_step cs wkv.1 _ wkv.2 st h

theorem exportWcGo_step (cs : List Container) :
    ∀ wgs : List (Nat × List Container),
      (∀ wkv ∈ wgs, ∀ c ∈ wkv.2, c ∈ cs ∧ c.weight_class = wkv.1) →
    ∀ st : PlanState, StepOK cs st (exportWcGo wgs st) := by
  intro wgs
  induction wgs with
  | nil => intro _ st; exact stepOK_refl cs st
  | cons wkv rest ih =>
    intro hg st
    unfold exportWcGo
    exact stepOK_trans cs st _ _ (exportGroupStep_step cs wkv (hg wkv (by simp)) st)
      (ih (fun w hw => hg w (by simp [hw])) _)

theorem exportPortGo_step (cs : List Container) :
    ∀ pgs : List (Option String × List Container),
      (∀ pkv ∈ pgs, ∀ c ∈ pkv.2, c ∈ cs) →
    ∀ st : PlanState, StepOK cs st (exportPortGo pgs st) := by
  intro pgs
  induction pgs with
  | nil => intro _ st; exact stepOK_refl cs st
  | cons pkv rest ih =>
    intro hg st
    unfold exportPortGo
    refine stepOK_trans cs st _ _ (exportWcGo_step cs _ ?_ st)
      (ih (fun p hp => hg p (by simp [hp])) _)
    intro wkv hwkv c hcw
    refine ⟨hg pkv (by simp) c
      (groupByKey_sub (fun c => c.weight_class) pkv.2 wkv hwkv c hcw), ?_⟩
    exact groupByKey_key (fun c => c.weight_class) pkv.2 wkv hwkv c hcw

theorem exportFallbackGo_step (cs : List Container) :
    ∀ rem : List Container, (∀ c ∈ rem, c ∈ cs) →
    ∀ st : PlanState, StepOK cs st (exportFallbackGo rem st) := by
  intro rem
  induction rem with
  | nil => intro _ st; exact stepOK_refl cs st
  | cons c rest ih =>
    intro hg st
    unfold exportFallbackGo exportFallbackStep
    dsimp only
    have h1 := place_anywhere_step cs c (hg c (by simp)) st
    by_cases hp : (place_container_anywhere c st).1
    · rw [if_pos hp]
      refine stepOK_trans cs st _ _ ?_ (ih (fun x hx => hg x (by simp [hx])) _)
      exact h1
    · rw [if_neg hp]
      refine stepOK_trans cs st _ _ ?_ (ih (fun x hx => hg x (by simp [hx])) _)
      exact h1

theorem compile_result_some (areas : Areas) (cs : List Container)
    (m : PlacementMap) (u : AreaUsage) (op : String) (res : Result)
    (h : compile_result areas cs m u op = some res) :
    res.placement_map = m ∧ res.total_placed = m.length ∧
    res.total_containers = cs.length ∧
    res.efficiency = ((m.length : ℚ) / (cs.length : ℚ)) * 100 := by
  unfold compile_result at h
  dsimp only at h
  split_ifs at h <;>
    (injection h with h2
     subst h2
     exact ⟨rfl, rfl, rfl, rfl⟩)

theorem import_run_ok (rng : List Nat) (cs : List Container)
    (cfg : List (String × List Nat)) :
    AreasOK (optimize_import_layout init_areas rng cs cfg).areas ∧
    AreasMono (set_area_weight_classes init_areas cfg)
      (optimize_import_layout init_areas rng cs cfg).areas ∧
    ∀ res, (optimize_import_layout init_areas rng cs cfg).result = some res →
      ∀ ur ∈ res.placement_map,
        RecordOK (optimize_import_layout init_areas rng cs cfg).areas
          (assign_weight_classes rng cs).1 ur := by
  have hA1 : AreasOK (set_area_weight_classes init_areas cfg) :=
    set_area_ok cfg init_areas areasOK_init
  obtain ⟨hpres, hmono⟩ := importGroupsGo_step (assign_weight_classes rng cs).1
    (groupByKey (fun c => c.transporter) (assign_weight_classes rng cs).1)
    (groupByKey_sub (fun c => c.transporter) (assign_weight_classes rng cs).1)
    (initState (set_area_weight_classes init_areas cfg))
  have hfin := hpres ⟨hA1, by intro ur hur; simp [initState] at hur⟩
  refine ⟨hfin.1, hmono, ?_⟩
  intro res hres ur hur
  have hcomp := compile_result_some _ _ _ _ _ res hres
  rw [hcomp.1] at hur
  exact hfin.2 ur hur

theorem export_run_ok (rng : List Nat) (cs : List Container)
    (cfg : List (String × List Nat)) :
    AreasOK (optimize_export_layout init_areas rng cs cfg).areas ∧
    AreasMono (set_area_weight_classes init_areas cfg)
      (optimize_export_layout init_areas rng cs cfg).areas ∧
    ∀ res, (optimize_export_layout init_areas rng cs cfg).result = some res →
      ∀ ur ∈ res.placement_map,
        RecordOK (optimize_export_layout init_areas rng cs cfg).areas
          (assign_weight_classes rng cs).1 ur := by
  have hA1 : AreasOK (set_area_weight_classes init_areas cfg) :=
    set_area_ok cfg init_areas areasOK_init
  have hport := exportPortGo_step (assign_weight_classes rng cs).1
    (groupByKey (fun c => c.port) (assign_weight_classes rng cs).1)
    (groupByKey_sub (fun c => c.port) (assign_weight_classes rng cs).1)
    (initState (set_area_weight_classes init_areas cfg))
  have hfall := exportFallbackGo_step (assign_weight_classes rng cs).1
    ((assign_weight_classes rng cs).1.filter (fun c =>
      !(mapContains (exportPortGo
          (groupByKey (fun c => c.port) (assign_weight_classes rng cs).1)
          (initState (set_area_weight_classes init_areas cfg))).placement_map
        c.unit_number)))
    (fun c hc => (List.mem_filter.mp hc).1)
    (exportPortGo (groupByKey (fun c => c.port) (assign_weight_classes rng cs).1)
      (initState (set_area_weight_classes init_areas cfg)))
  obtain ⟨hpres, hmono⟩ := stepOK_trans _ _ _ _ hport hfall
  have hfin := hpres ⟨hA1, by intro ur hur; simp [initState] at hur⟩
  refine ⟨hfin.1, hmono, ?_⟩
  intro res hres ur hur
  have hcomp := compile_result_some _ _ _ _ _ res hres
  rw [hcomp.1] at hur
  exact hfin.2 ur hur

/-- C5: in every inbound run, every outbound run and every best-effort
fallback placement, a Reefer-category container only ever sits on a
reefer-eligible slot; in the other direction a non-reefer container may
occupy a reefer-eligible slot. -/
theorem c5_reefer_placement_safe :
    (∀ (rng : List Nat) (cs : List Container) (cfg : List (String × List Nat)),
      (∀ kv ∈ (optimize_import_layout init_areas rng cs cfg).areas,
        ∀ p ∈ kv.2.positions, PosReeferOK p) ∧
      (∀ kv ∈ (optimize_export_layout init_areas rng cs cfg).areas,
        ∀ p ∈ kv.2.positions, PosReeferOK p)) ∧
    (∀ (cs : List Container) (c : Container) (st : PlanState),
      c ∈ cs → StOK cs st →
      ∀ kv ∈ (place_container_anywhere c st).2.areas,
        ∀ p ∈ kv.2.positions, PosReeferOK p) ∧
    ((mkYardPosition ("M2") 1 (Char.ofNat 65) 5).is_reefer_position = true ∧
     c1Cont.category ≠ ("Reefer") ∧
     YardPosition.can_place_container (mkYardPosition ("M2") 1 (Char.ofNat 65) 5)
       c1Cont [1, 2, 3, 4, 5, 6, 7, 8] = true ∧
     ((mkYardPosition ("M2") 1 (Char.ofNat 65) 5).place_container
       c1Cont).2.containers = [c1Cont]) := by
  refine ⟨fun rng cs cfg => ⟨?_, ?_⟩, ?_, by decide, by decide, by decide, by decide⟩
  · intro kv hkv p hp
    exact ((import_run_ok rng cs cfg).1 kv hkv p hp).2
  · intro kv hkv p hp
    exact ((export_run_ok rng cs cfg).1 kv hkv p hp).2
  · intro cs c st hc hst kv hkv p hp
    have h := (place_anywhere_step cs c hc st).1 hst
    exact (h.1 kv hkv p hp).2

theorem c5_reefer_placement_safe_witness :
    c1Cont ∈ [c1Cont] ∧ StOK [c1Cont] (initState c9Areas) ∧
    ∀ kv ∈ (place_container_anywhere c1Cont (initState c9Areas)).2.areas,
      ∀ p ∈ kv.2.positions, PosReeferOK p :=
  ⟨by simp, by decide,
   c5_reefer_placement_safe.2.1 [c1Cont] c1Cont (initState c9Areas)
     (by simp) (by decide)⟩

/-- C6: throughout both strategies no slot ever holds more containers
than its stack height, the remaining-tier counter stays within
[0, max_tiers] and never increases (`AreasMono` also states that the
stack only grows), and a successful placement on a slot holding n
containers issues tier number n + 1 (so successive placements at one
slot are numbered 1, 2, 3, ...). -/
theorem c6_capacity_and_tiers :
    (∀ (rng : List Nat) (cs : List Container) (cfg : List (String × List Nat)),
      (∀ kv ∈ (optimize_import_layout init_areas rng cs cfg).areas,
        ∀ p ∈ kv.2.positions, PosCapOK p ∧
          (p.containers.length : Int) ≤ p.max_tiers ∧
          p.available_tiers ≤ p.max_tiers) ∧
      AreasMono (set_area_weight_classes init_areas cfg)
        (optimize_import_layout init_areas rng cs cfg).areas ∧
      (∀ kv ∈ (optimize_export_layout init_areas rng cs cfg).areas,
        ∀ p ∈ kv.2.positions, PosCapOK p ∧
          (p.containers.length : Int) ≤ p.max_tiers ∧
          p.available_tiers ≤ p.max_tiers) ∧
      AreasMono (set_area_weight_classes init_areas cfg)
        (optimize_export_layout init_areas rng cs cfg).areas) ∧
    (∀ (p : YardPosition) (c : Container), 0 < p.available_tiers →
      (p.place_container c).1 = true ∧
      (p.place_container c).2.containers.length = p.containers.length + 1 ∧
      (p.place_container c).2.get_position_tier = p.containers.length + 1 ∧
      (p.place_container c).2.available_tiers = p.available_tiers - 1) := by
  constructor
  · intro rng cs cfg
    refine ⟨?_, (import_run_ok rng cs cfg).2.1, ?_, (export_run_ok rng cs cfg).2.1⟩
    · intro kv hkv p hp
      obtain ⟨⟨h0, hsum⟩, _⟩ := (import_run_ok rng cs cfg).1 kv hkv p hp
      refine ⟨⟨h0, hsum⟩, by omega, by omega⟩
    · intro kv hkv p hp
      obtain ⟨⟨h0, hsum⟩, _⟩ := (export_run_ok rng cs cfg).1 kv hkv p hp
      refine ⟨⟨h0, hsum⟩, by omega, by omega⟩
  · intro p c h
    rw [pos_place_eq p c (by omega)]
    refine ⟨rfl, by simp, ?_, rfl⟩
    unfold YardPosition.get_position_tier
    simp

theorem c6_capacity_and_tiers_witness :
    0 < (mkYardPosition ("Z") 1 (Char.ofNat 65) 4).available_tiers ∧
    ((mkYardPosition ("Z") 1 (Char.ofNat 65) 4).place_container
      c1Cont).2.get_position_tier = 1 :=
  ⟨by decide,
   (c6_capacity_and_tiers.2 (mkYardPosition ("Z") 1 (Char.ofNat 65) 4) c1Cont
     (by decide)).2.2.1⟩

/-- C8: in an outbound run, every committed placement record names a
zone that exists and permits the record's weight class, and stems from
one of the run's containers; hence a batch whose containers all carry a
weight class permitted by no zone produces an empty placement map with
efficiency 0 percent and no exception (for a non-empty batch the run
returns a result instead of faulting). -/
theorem c8_unplaceable_class (rng : List Nat) (cs : List Container)
    (cfg : List (String × List Nat)) :
    (cs ≠ [] → ∃ res,
      (optimize_export_layout init_areas rng cs cfg).result = some res) ∧
    (∀ res, (optimize_export_layout init_areas rng cs cfg).result = some res →
      (∀ ur ∈ res.placement_map,
        RecordOK (optimize_export_layout init_areas rng cs cfg).areas
          (assign_weight_classes rng cs).1 ur) ∧
      ((∀ c ∈ (assign_weight_classes rng cs).1,
          ∀ kv ∈ (optimize_export_layout init_areas rng cs cfg).areas,
            c.weight_class ∉ kv.2.allowed_weight_classes) →
        res.placement_map = [] ∧ res.efficiency = 0 ∧ res.total_placed = 0)) := by
  constructor
  · intro hne
    cases hr : (optimize_export_layout init_areas rng cs cfg).result with
    | some res => exact ⟨res, rfl⟩
    | none =>
      exfalso
      have hnil := (compile_result_none_iff _ _ _ _ _).mp hr
      have hlen := assign_length rng cs
      rw [hnil] at hlen
      exact hne (List.length_eq_zero.mp hlen.symm)
  · intro res hres
    have hrec := (export_run_ok rng cs cfg).2.2 res hres
    refine ⟨hrec, ?_⟩
    intro hbad
    have hmapnil : res.placement_map = [] := by
      by_contra hne
      obtain ⟨ur, hur⟩ := List.exists_mem_of_ne_nil _ hne
      obtain ⟨⟨kv, hkv, hname, hmem⟩, ⟨c, hcmem, hunit, hwc⟩⟩ := hrec ur hur
      have hnot := hbad c hcmem kv hkv
      rw [← hwc] at hnot
      exact hnot hmem
    have hcomp := compile_result_some _ _ _ _ _ res hres
    have h1 := hcomp.1
    rw [hmapnil] at h1
    refine ⟨hmapnil, ?_, ?_⟩
    · rw [hcomp.2.2.2, ← h1]
      simp
    · rw [hcomp.2.1, ← h1]
      simp

theorem c8_unplaceable_class_witness :
    ([c8Cont] ≠ ([] : List Container)) ∧
    (optimize_export_layout init_areas [] [c8Cont] c8Cfg).result =
      some (((optimize_export_layout init_areas [] [c8Cont] c8Cfg).result).getD
        dummyResult) ∧
    (∀ c ∈ (assign_weight_classes [] [c8Cont]).1,
      ∀ kv ∈ (optimize_export_layout init_areas [] [c8Cont] c8Cfg).areas,
        c.weight_class ∉ kv.2.allowed_weight_classes) ∧
    (((optimize_export_layout init_areas [] [c8Cont] c8Cfg).result).getD
      dummyResult).placement_map = [] :=
  ⟨by simp, by rfl, by decide,
   (((c8_unplaceable_class [] [c8Cont] c8Cfg).2
     (((optimize_export_layout init_areas [] [c8Cont] c8Cfg).result).getD
       dummyResult) (by rfl)).2 (by decide)).1⟩

theorem assign_of_weighted : ∀ (cs : List Container) (rng : List Nat),
    (∀ c ∈ cs, c.weight ≠ none) →
    assign_weight_classes rng cs = (cs.map canonC, rng) := by
  intro cs
  induction cs with
  | nil => intro rng _; rfl
  | cons c rest ih =>
    intro rng hw
    cases hweq : c.weight with
    | none => exact absurd hweq (hw c (by simp))
    | some w =>
      simp only [assign_weight_classes, hweq]
      rw [ih rng (fun d hd => hw d (by simp [hd]))]
      simp [canonC, hweq]

theorem mkContainers_of_det : ∀ (rs : List RawRecord) (rng : List Nat),
    (∀ r ∈ rs, DeterministicRec r) →
    mkContainers rng rs = (rs.map canonMk, rng) := by
  intro rs
  induction rs with
  | nil => intro rng _; rfl
  | cons r rest ih =>
    intro rng hd
    have hs : determine_size r.iso_type rng =
        ((if strContains r.iso_type ("45") then 12 else 6), rng) := by
      by_cases h45 : strContains r.iso_type ("45") = true
      · simp [determine_size, h45]
      · obtain ⟨hiso, _⟩ := hd r (by simp)
        simp only [Bool.or_eq_true] at hiso
        rcases hiso with (h | h) | h
        · exact absurd h h45
        · simp [determine_size, h45, h]
        · simp [determine_size, h45, h]
    have h1 : mkContainer rng r = (canonMk r, rng) := by
      cases hwe : r.weight with
      | none => exact absurd hwe (hd r (by simp)).2
      | some w =>
        simp only [mkContainer, hs, determine_weight_class, hwe, canonMk,
          Option.getD_some]
    simp only [mkContainers, h1]
    rw [ih rng (fun x hx => hd x (by simp [hx]))]
    simp

theorem import_run_weighted (areas : Areas) (rng : List Nat)
    (cs : List Container) (cfg : List (String × List Nat))
    (hw : ∀ c ∈ cs, c.weight ≠ none) :
    optimize_import_layout areas rng cs cfg =
      { optimize_import_layout areas [] cs cfg with rng := rng } := by
  have h1 := assign_of_weighted cs rng hw
  have h2 := assign_of_weighted cs [] hw
  simp only [optimize_import_layout, h1, h2]

theorem export_run_weighted (areas : Areas) (rng : List Nat)
    (cs : List Container) (cfg : List (String × List Nat))
    (hw : ∀ c ∈ cs, c.weight ≠ none) :
    optimize_export_layout areas rng cs cfg =
      { optimize_export_layout areas [] cs cfg with rng := rng } := by
  have h1 := assign_of_weighted cs rng hw
  have h2 := assign_of_weighted cs [] hw
  simp only [optimize_export_layout, h1, h2]

theorem strategy_if_weighted (op : String) (cs : List Container)
    (cfg : List (String × List Nat)) (hw : ∀ c ∈ cs, c.weight ≠ none)
    (rng : List Nat) :
    (if op == ("IMPORT") then optimize_import_layout init_areas rng cs cfg
     else optimize_export_layout init_areas rng cs cfg) =
    { (if op == ("IMPORT") then optimize_import_layout init_areas [] cs cfg
       else optimize_export_layout init_areas [] cs cfg) with rng := rng } := by
  by_cases hop : (op == ("IMPORT")) = true
  · rw [if_pos hop, if_pos hop]
    exact import_run_weighted init_areas rng cs cfg hw
  · rw [if_neg hop, if_neg hop]
    exact export_run_weighted init_areas rng cs cfg hw

theorem generate_go_weighted (cs : List Container) (op : String)
    (cfg : List (String × List Nat)) (hw : ∀ c ∈ cs, c.weight ≠ none) :
    ∀ (k i : Nat) (rng rng2 : List Nat) (ps : List Proposal),
      generate_go cs op cfg k i rng = some (ps, rng2) →
      ∀ p ∈ ps, some p.placement_map =
        ((if op == ("IMPORT") then optimize_import_layout init_areas [] cs cfg
          else optimize_export_layout init_areas [] cs cfg)).result.map
          (fun r => r.placement_map) := by
  intro k
  induction k with
  | zero =>
    intro i rng rng2 ps h
    simp only [generate_go, Option.some.injEq, Prod.mk.injEq] at h
    intro p hp
    rw [← h.1] at hp
    simp at hp
  | succ k ih =>
    intro i rng rng2 ps h
    simp only [generate_go] at h
    rw [strategy_if_weighted op cs cfg hw rng] at h
    dsimp only at h
    cases hR : (if op == ("IMPORT") then optimize_import_layout init_areas [] cs cfg
        else optimize_export_layout init_areas [] cs cfg).result with
    | none =>
      rw [hR] at h
      simp at h
    | some res =>
      rw [hR] at h
      dsimp only at h
      cases hG : generate_go cs op cfg k (i + 1) rng with
      | none =>
        rw [hG] at h
        simp at h
      | some pr =>
        rw [hG] at h
        simp only [Option.some.injEq, Prod.mk.injEq] at h
        intro p hp
        rw [← h.1] at hp
        rcases List.mem_cons.mp hp with rfl | hp2
        · rfl
        · have h3 := ih (i + 1) rng pr.2 pr.1 (by rw [hG]) p hp2
          rw [hR] at h3
          exact h3

/-- C7: for raw records that all carry a present gross weight and an ISO
code matching a length pattern, construction consumes no randomness (two
constructions agree), each strategy's result — hence its placement
map — is independent of the random oracle (two-run determinism on
freshly constructed, identically configured yards), and the N proposals
of one generator call have pairwise identical placement maps. -/
theorem c7_determinism (rs : List RawRecord) (cfg : List (String × List Nat))
    (hd : ∀ r ∈ rs, DeterministicRec r) :
    (∀ rng1 rng2 : List Nat,
      (mkContainers rng1 rs).1 = (mkContainers rng2 rs).1 ∧
      (optimize_import_layout init_areas rng1 (mkContainers rng1 rs).1 cfg).result =
        (optimize_import_layout init_areas rng2 (mkContainers rng2 rs).1 cfg).result ∧
      (optimize_export_layout init_areas rng1 (mkContainers rng1 rs).1 cfg).result =
        (optimize_export_layout init_areas rng2 (mkContainers rng2 rs).1 cfg).result) ∧
    (∀ (op : String) (n : Nat) (rng rng2 : List Nat) (ps : List Proposal),
      generate_multiple_proposals rng (mkContainers rng rs).1 op cfg n =
        some (ps, rng2) →
      ∀ p ∈ ps, ∀ q ∈ ps, p.placement_map = q.placement_map) := by
  have hmk : ∀ rng : List Nat, (mkContainers rng rs).1 = rs.map canonMk := by
    intro rng
    rw [mkContainers_of_det rs rng hd]
  have hw : ∀ c ∈ rs.map canonMk, c.weight ≠ none := by
    intro c hc
    obtain ⟨r, hr, rfl⟩ := List.mem_map.mp hc
    exact (hd r hr).2
  constructor
  · intro rng1 rng2
    rw [hmk rng1, hmk rng2]
    refine ⟨rfl, ?_, ?_⟩
    · rw [import_run_weighted init_areas rng1 (rs.map canonMk) cfg hw,
        import_run_weighted init_areas rng2 (rs.map canonMk) cfg hw]
    · rw [export_run_weighted init_areas rng1 (rs.map canonMk) cfg hw,
        export_run_weighted init_areas rng2 (rs.map canonMk) cfg hw]
  · intro op n rng rng2 ps h p hp q hq
    rw [hmk rng] at h
    have h1 := generate_go_weighted (rs.map canonMk) op cfg hw n 0 rng rng2 ps h p hp
    have h2 := generate_go_weighted (rs.map canonMk) op cfg hw n 0 rng rng2 ps h q hq
    exact Option.some.inj (h1.trans h2.symm)

theorem c7_determinism_witness :
    (∀ r ∈ [c7Rec], DeterministicRec r) ∧
    (mkContainers [5] [c7Rec]).1 = (mkContainers [9] [c7Rec]).1 ∧
    (optimize_export_layout init_areas [5] (mkContainers [5] [c7Rec]).1 []).result =
      (optimize_export_layout init_areas [9] (mkContainers [9] [c7Rec]).1 []).result := by
  have hD : ∀ r ∈ [c7Rec], DeterministicRec r := by decide
  refine ⟨hD, ?_, ?_⟩
  · exact ((c7_determinism [c7Rec] [] hD).1 [5] [9]).1
  · exact ((c7_determinism [c7Rec] [] hD).1 [5] [9]).2.2

/-- C9: a below-threshold group attempt leaves the committed map, usage
table and placed count untouched but its tier decrements persist (its
count exactly accounts for the lost capacity); the zone loop continues
from the attempt's mutated state, not from a restored one; concretely,
on a two-zone one-tier yard a mixed group ends with an empty placement
map while the same container has consumed the only tier of both zones. -/
theorem c9_no_rollback :
    (∀ (name : String) (group : List Container) (st : PlanState),
      (importAttempt name group st).2.2.placement_map = st.placement_map ∧
      (importAttempt name group st).2.2.area_usage = st.area_usage ∧
      (importAttempt name group st).2.2.placed_count = st.placed_count ∧
      total_avail_of (importAttempt name group st).2.2.areas +
        ((importAttempt name group st).2.1 : Int) = total_avail_of st.areas) ∧
    (∀ (group : List Container) (name : String) (rest : List String)
       (st : PlanState),
      ¬ ((importAttempt name group st).2.1 : ℚ) ≥ (group.length : ℚ) * (4 / 5) →
      importTryZones group (name :: rest) st =
        importTryZones group rest (importAttempt name group st).2.2) ∧
    ((optimize_import_layout c9Areas [] [c9Std, c9Reefer] []).result.map
        (fun r => r.placement_map) = some [] ∧
     (optimize_import_layout c9Areas [] [c9Std, c9Reefer] []).areas.map
        (fun kv => kv.2.positions.map
          (fun p => (p.available_tiers, p.containers.map (fun c => c.unit_number))))
       = [[((0 : Int), [("X1")])], [((0 : Int), [("X1")])]]) := by
  refine ⟨?_, ?_, by decide, by decide⟩
  · intro name group st
    have h := importAttempt_step group name group (fun c hc => hc) st
    exact ⟨h.2.1, h.2.2.1, h.2.2.2.1, h.2.2.2.2.2⟩
  · intro group name rest st h
    simp only [importTryZones]
    rw [if_neg h]

theorem c9_no_rollback_witness :
    (¬ ((importAttempt ("A1") [c9Std, c9Reefer] (initState c9Areas)).2.1 : ℚ) ≥
      (([c9Std, c9Reefer] : List Container).length : ℚ) * (4 / 5)) ∧
    importTryZones [c9Std, c9Reefer] [("A1"), ("A2")] (initState c9Areas) =
      importTryZones [c9Std, c9Reefer] [("A2")]
        (importAttempt ("A1") [c9Std, c9Reefer] (initState c9Areas)).2.2 :=
  ⟨by decide,
   c9_no_rollback.2.1 [c9Std, c9Reefer] ("A1") [("A2")] (initState c9Areas)
     (by decide)⟩

end YardPlanner
